import Mathlib

/-!
Tru64PlatformUtils: path weaving, recursive mutex, emulated atomics.

A shallow embedding of `src/util/Platforms/Tru64/Tru64PlatformUtils.cpp`.

* A NUL-terminated `XMLCh` string is the list of its characters before the
  terminator; reading at or past the end of the list yields the terminator `0`.
  A list that is a C string holds no `0`.
* A pointer into a string is an offset from the start of the string. `basePtr`
  may step before the start of `basePath`, so it is an `Int`.
* Results of operating-system calls are parameters of the model.
* `weavePaths` is embedded a second time with every read checked against the bounds of the
  string read, and proved equal to the first embedding on all inputs.
* Threads sharing a `RecursiveMutex` are a step machine, one step per statement.
-/

namespace Tru64

/-! ## Characters and strings -/

/-- A UTF-16 code unit (`unsigned short` in the source). -/
abbrev XMLCh := Nat

/-- Modelled from the spec: `chForwardSlash` is declared in `XMLUniDefs.hpp`, which is not
among the sources; the spec calls it the forward slash. -/
def chForwardSlash : XMLCh := 0x2F

/-- Modelled from the spec: `chBackSlash` is declared in `XMLUniDefs.hpp`, which is not
among the sources; the spec calls it the backslash. -/
def chBackSlash : XMLCh := 0x5C

/-- Modelled from the spec: `chPeriod` is declared in `XMLUniDefs.hpp`, which is not
among the sources; the spec calls it the period of the "." and ".." segments. -/
def chPeriod : XMLCh := 0x2E

/-- The character `s[i]`: the terminator when `i` is at or past the end. -/
def charAt (s : List XMLCh) (i : Nat) : XMLCh := s.getD i 0

/-- The string literal `s` as a list of code units. -/
def xml (s : String) : List XMLCh := s.toList.map Char.toNat

/-- Modelled from the spec: `XMLString::stringLen` is defined in `XMLString.cpp`, which is not
among the sources; the number of characters before the terminator, `0` for a null pointer. -/
def stringLen : Option (List XMLCh) → Nat
  | none => 0
  | some s => s.length

/-- Modelled from the spec: `XMLString::copyString` is defined in `XMLString.cpp`, which is not
among the sources; copies the characters of the source from offset `src` up to its
terminator. -/
def copyString (s : List XMLCh) (src : Nat) : List XMLCh := s.drop src

/-! ## `XMLPlatformUtils::isRelative` -/

/-- The function `XMLPlatformUtils::isRelative`. -/
def isRelative (toCheck : List XMLCh) : Bool :=
  -- Check for pathological case of empty path
  if charAt toCheck 0 = 0 then false
  -- If it starts with a slash, then it cannot be relative.
  else if charAt toCheck 0 = 0x2F then false
  -- Else assume its a relative path
  else true

/-! ## `XMLPlatformUtils::weavePaths` -/

/-- The condition `(*p != chForwardSlash) && (*p != chBackSlash)` on a character. -/
def notSlash (c : XMLCh) : Bool := c != chForwardSlash && c != chBackSlash

/-- The loop
`while ((basePtr >= basePath) && ((*basePtr != chForwardSlash) && (*basePtr != chBackSlash))) basePtr--;`
run for at most `fuel` iterations. -/
def scanBack (basePath : List XMLCh) : Nat → Int → Int
  | 0, basePtr => basePtr
  | fuel + 1, basePtr =>
    if basePtr ≥ 0 && notSlash (charAt basePath basePtr.toNat) then
      scanBack basePath fuel (basePtr - 1)
    else basePtr

/-- The body of `if (periodCount == 2)`: `basePtr--` and the backward scan. No iteration of
the scan starts below offset `0`, so `stringLen(basePath) + 1` iterations are enough. -/
def popLevel (basePath : List XMLCh) (basePtr : Int) : Int :=
  scanBack basePath (basePath.length + 1) (basePtr - 1)

/-- The loop `while (true)` of `weavePaths` over the leading periods of `relativePath`, run for
at most `fuel` iterations; returns `basePtr` and `pathPtr` as they are when the loop is left. -/
def weaveLoop (basePath relativePath : List XMLCh) : Nat → Int → Nat → Int × Nat
  | 0, basePtr, pathPtr => (basePtr, pathPtr)
  | fuel + 1, basePtr, pathPtr =>
    -- If it does not start with some period, then we are done
    if charAt relativePath pathPtr != chPeriod then (basePtr, pathPtr)
    else
      let periodCount : Nat := 1
      let pathPtr := pathPtr + 1
      let (pathPtr, periodCount) :=
        if charAt relativePath pathPtr == chPeriod then (pathPtr + 1, periodCount + 1)
        else (pathPtr, periodCount)
      -- Has to be followed by a \ or / or the null to mean anything
      if notSlash (charAt relativePath pathPtr) && charAt relativePath pathPtr != 0 then
        (basePtr, pathPtr)
      else
        let pathPtr := if charAt relativePath pathPtr != 0 then pathPtr + 1 else pathPtr
        -- If its one period, just eat it, else move backwards in the base
        if periodCount == 2 then
          weaveLoop basePath relativePath fuel (popLevel basePath basePtr) pathPtr
        else
          weaveLoop basePath relativePath fuel basePtr pathPtr

/-- The loop `while (tmpPtr <= basePtr) *bufPtr++ = *tmpPtr++;`: the characters of `basePath`
at offsets `0 .. basePtr`. -/
def copyBase (basePath : List XMLCh) (basePtr : Int) : List XMLCh :=
  (List.range (basePtr + 1).toNat).map (charAt basePath)

/-- The function `XMLPlatformUtils::weavePaths`; `none` is the null `basePath`. Every iteration
of the `while (true)` loop that does not leave it advances `pathPtr`, which never passes the
terminator, so `stringLen(relativePath) + 1` iterations are enough. -/
def weavePaths (basePath : Option (List XMLCh)) (relativePath : List XMLCh) : List XMLCh :=
  match basePath with
  | none => copyString relativePath 0
  | some basePath =>
    if charAt basePath 0 = 0 then copyString relativePath 0
    else
      let basePtr : Int := (stringLen (some basePath) : Int) - 1
      let basePtr :=
        if notSlash (charAt basePath basePtr.toNat) then
          scanBack basePath (basePath.length + 1) basePtr
        else basePtr
      -- There is no relevant base path, so just take the relative part
      if basePtr < 0 then copyString relativePath 0
      else
        let (basePtr, pathPtr) :=
          weaveLoop basePath relativePath (relativePath.length + 1) basePtr 0
        -- Copy the base part up to the base pointer, and then copy on the rest of our path
        copyBase basePath basePtr ++ copyString relativePath pathPtr

/-! ## `XMLPlatformUtils::weavePaths` with every read checked

The same function once more, each read `*p` now checked against the bounds of the string read:
the offsets from the start of the string to its terminator are valid, a read anywhere else
makes the run end with `none`. -/

/-- The read `*p` at offset `i` of the string `s`: `none` before the start of the string and
behind its terminator. -/
def readAt (s : List XMLCh) (i : Int) : Option XMLCh :=
  if 0 ≤ i ∧ i ≤ (s.length : Int) then some (charAt s i.toNat) else none

/-- The loop of `scanBack`, reads checked. The test `basePtr >= basePath` comes first and `&&`
does not evaluate `*basePtr` when it fails. -/
def scanBackChecked (basePath : List XMLCh) : Nat → Int → Option Int
  | 0, basePtr => some basePtr
  | fuel + 1, basePtr =>
    if basePtr ≥ 0 then
      (readAt basePath basePtr).bind fun c =>
        if notSlash c then scanBackChecked basePath fuel (basePtr - 1) else some basePtr
    else some basePtr

/-- The body of `if (periodCount == 2)`, reads checked. -/
def popLevelChecked (basePath : List XMLCh) (basePtr : Int) : Option Int :=
  scanBackChecked basePath (basePath.length + 1) (basePtr - 1)

/-- The loop of `weaveLoop`, reads checked. -/
def weaveLoopChecked (basePath relativePath : List XMLCh) : Nat → Int → Nat → Option (Int × Nat)
  | 0, basePtr, pathPtr => some (basePtr, pathPtr)
  | fuel + 1, basePtr, pathPtr =>
    (readAt relativePath pathPtr).bind fun c0 =>
      -- If it does not start with some period, then we are done
      if c0 != chPeriod then some (basePtr, pathPtr)
      else
        let periodCount : Nat := 1
        let pathPtr := pathPtr + 1
        (readAt relativePath (pathPtr : Int)).bind fun c1 =>
          let (pathPtr, periodCount) :=
            if c1 == chPeriod then (pathPtr + 1, periodCount + 1) else (pathPtr, periodCount)
          (readAt relativePath (pathPtr : Int)).bind fun c2 =>
            -- Has to be followed by a \ or / or the null to mean anything
            if notSlash c2 && c2 != 0 then some (basePtr, pathPtr)
            else
              let pathPtr := if c2 != 0 then pathPtr + 1 else pathPtr
              -- If its one period, just eat it, else move backwards in the base
              if periodCount == 2 then
                (popLevelChecked basePath basePtr).bind fun basePtr =>
                  weaveLoopChecked basePath relativePath fuel basePtr pathPtr
              else
                weaveLoopChecked basePath relativePath fuel basePtr pathPtr

/-- The reads at the offsets `is` of the string `s`, one after the other. -/
def readAll (s : List XMLCh) : List Nat → Option (List XMLCh)
  | [] => some []
  | i :: is => (readAt s (i : Int)).bind fun c => (readAll s is).map (c :: ·)

/-- The loop of `copyBase`, reads checked. -/
def copyBaseChecked (basePath : List XMLCh) (basePtr : Int) : Option (List XMLCh) :=
  readAll basePath (List.range (basePtr + 1).toNat)

/-- The call of `copyString` from offset `src`, which reads from there to the terminator:
valid when `src` is not behind the terminator. -/
def copyStringChecked (s : List XMLCh) (src : Nat) : Option (List XMLCh) :=
  if src ≤ s.length then some (copyString s src) else none

/-- The function `XMLPlatformUtils::weavePaths`, reads checked. -/
def weavePathsChecked (basePath : Option (List XMLCh)) (relativePath : List XMLCh) :
    Option (List XMLCh) :=
  match basePath with
  | none => copyStringChecked relativePath 0
  | some basePath =>
    (readAt basePath 0).bind fun c =>
      if c = 0 then copyStringChecked relativePath 0
      else
        let basePtr : Int := (stringLen (some basePath) : Int) - 1
        (readAt basePath basePtr).bind fun c =>
          (if notSlash c then scanBackChecked basePath (basePath.length + 1) basePtr
            else some basePtr).bind fun basePtr =>
            -- There is no relevant base path, so just take the relative part
            if basePtr < 0 then copyStringChecked relativePath 0
            else
              (weaveLoopChecked basePath relativePath (relativePath.length + 1) basePtr 0).bind
                fun (basePtr, pathPtr) =>
                  (copyBaseChecked basePath basePtr).bind fun dir =>
                    (copyStringChecked relativePath pathPtr).map fun rest => dir ++ rest

/-! ## Machine integers and operating-system primitives -/

/-- The value of an `int` after an arithmetic result `x`: 32 bits, two's complement. -/
def wrapInt (x : Int) : Int := (x + 2147483648) % 4294967296 - 2147483648

/-- The largest `int`. -/
def INT_MAX : Int := 2147483647

/-- The smallest `int`. -/
def INT_MIN : Int := -2147483648

/-- A thread identity; `0` is the value the source stores for "no thread". `pthread_self()`
never yields `0`. -/
abbrev pthread_t := Nat

/-- An operating-system mutex: the thread holding it, `none` when it is free. -/
abbrev pthread_mutex_t := Option pthread_t

/-- The call `pthread_mutex_lock` by thread `self`. `rc` is the status the operating system
reports when the call returns: non-zero reports failure and leaves the mutex alone, `0`
means the mutex was acquired, which takes a free mutex; on a held mutex the call does not
return (`none`). -/
def pthread_mutex_lock (rc : Int) (self : pthread_t) (mutex : pthread_mutex_t) :
    Option (Int × pthread_mutex_t) :=
  if rc ≠ 0 then some (rc, mutex)
  else
    match mutex with
    | none => some (0, some self)
    | some _ => none

/-- The call `pthread_mutex_unlock`. `rc` is the status the operating system reports:
non-zero reports failure and leaves the mutex alone, `0` means the mutex was released. -/
def pthread_mutex_unlock (rc : Int) (mutex : pthread_mutex_t) : Int × pthread_mutex_t :=
  if rc ≠ 0 then (rc, mutex) else (0, none)

/-- The calls made on the operating-system mutex. -/
inductive OsCall where
  | mutexLock
  | mutexUnlock
  | mutexDestroy
  deriving DecidableEq, Repr

/-- Modelled from the spec: the error codes of `XMLExcepts` that the mutex code throws; the
enumeration is declared in `XMLExceptMsgs.hpp`, which is not among the sources. -/
inductive XMLExcepts where
  | Mutex_CouldNotCreate
  | Mutex_CouldNotDestroy
  | Mutex_CouldNotLock
  | Mutex_CouldNotUnlock
  deriving DecidableEq, Repr

/-! ## `RecursiveMutex` -/

/-- The class `RecursiveMutex`. -/
structure RecursiveMutex where
  mutex : pthread_mutex_t
  recursionCount : Int
  tid : pthread_t
  deriving DecidableEq, Repr

/-- How a call on a `RecursiveMutex` ends: it returns, it throws an
`XMLPlatformUtilsException`, or it waits inside `pthread_mutex_lock`. -/
inductive Outcome where
  | returned
  | threw (code : XMLExcepts)
  | blocked
  deriving DecidableEq, Repr

/-- The end of a call on a `RecursiveMutex`: the outcome, the object as the call leaves it and
the operating-system calls it made. -/
structure CallResult where
  outcome : Outcome
  state : RecursiveMutex
  osCalls : List OsCall
  deriving DecidableEq, Repr

/-- The function `XMLPlatformUtils::makeMutex`, that is the constructor `RecursiveMutex()`;
`rc` is the status of `pthread_mutex_init`. -/
def makeMutex (rc : Int) : Except XMLExcepts RecursiveMutex :=
  if rc ≠ 0 then .error .Mutex_CouldNotCreate
  else .ok { mutex := none, recursionCount := 0, tid := 0 }

/-- The method `RecursiveMutex::lock` called by thread `self`; `rc` is the status of
`pthread_mutex_lock` should the call be made and return. -/
def RecursiveMutex.lock (self : pthread_t) (rc : Int) (m : RecursiveMutex) : CallResult :=
  if m.tid = self then
    { outcome := .returned,
      state := { m with recursionCount := wrapInt (m.recursionCount + 1) },
      osCalls := [] }
  else
    match pthread_mutex_lock rc self m.mutex with
    | none => { outcome := .blocked, state := m, osCalls := [.mutexLock] }
    | some (r, mutex) =>
      if r ≠ 0 then
        { outcome := .threw .Mutex_CouldNotLock, state := { m with mutex := mutex },
          osCalls := [.mutexLock] }
      else
        { outcome := .returned, state := { mutex := mutex, recursionCount := 1, tid := self },
          osCalls := [.mutexLock] }

/-- The method `RecursiveMutex::unlock`; `rc` is the status of `pthread_mutex_unlock` should
the call be made. -/
def RecursiveMutex.unlock (rc : Int) (m : RecursiveMutex) : CallResult :=
  let recursionCount := wrapInt (m.recursionCount - 1)
  if recursionCount > 0 then
    { outcome := .returned, state := { m with recursionCount := recursionCount }, osCalls := [] }
  else
    match pthread_mutex_unlock rc m.mutex with
    | (r, mutex) =>
      if r ≠ 0 then
        { outcome := .threw .Mutex_CouldNotUnlock,
          state := { m with recursionCount := recursionCount, mutex := mutex },
          osCalls := [.mutexUnlock] }
      else
        { outcome := .returned,
          state := { mutex := mutex, recursionCount := recursionCount, tid := 0 },
          osCalls := [.mutexUnlock] }

/-- The destructor `~RecursiveMutex()`; `rc` is the status of `pthread_mutex_destroy`. -/
def RecursiveMutex.destroy (rc : Int) (m : RecursiveMutex) : CallResult :=
  if rc ≠ 0 then
    { outcome := .threw .Mutex_CouldNotDestroy, state := m, osCalls := [.mutexDestroy] }
  else
    { outcome := .returned, state := m, osCalls := [.mutexDestroy] }

/-- The end of a call on a mutex handle: the outcome, the object behind the handle as the call
leaves it (`none` for the null handle and for a deleted object) and the operating-system
calls made. -/
structure HandleResult (α : Type) where
  outcome : Outcome
  object : Option α
  osCalls : List OsCall

/-- The function `XMLPlatformUtils::closeMutex` (threaded build); `none` is the null handle and
`rc` the status of `pthread_mutex_destroy`. After `delete rm` the object is gone. -/
def closeMutex (rc : Int) (mtxHandle : Option RecursiveMutex) : HandleResult RecursiveMutex :=
  match mtxHandle with
  | none => { outcome := .returned, object := none, osCalls := [] }
  | some rm =>
    { outcome := (rm.destroy rc).outcome, object := none, osCalls := (rm.destroy rc).osCalls }

/-- The function `XMLPlatformUtils::lockMutex` (threaded build) called by thread `self`; `none`
is the null handle. -/
def lockMutex (self : pthread_t) (rc : Int) (mtxHandle : Option RecursiveMutex) :
    HandleResult RecursiveMutex :=
  match mtxHandle with
  | none => { outcome := .returned, object := none, osCalls := [] }
  | some rm =>
    { outcome := (rm.lock self rc).outcome, object := some (rm.lock self rc).state,
      osCalls := (rm.lock self rc).osCalls }

/-- The function `XMLPlatformUtils::unlockMutex` (threaded build); `none` is the null
handle. -/
def unlockMutex (rc : Int) (mtxHandle : Option RecursiveMutex) : HandleResult RecursiveMutex :=
  match mtxHandle with
  | none => { outcome := .returned, object := none, osCalls := [] }
  | some rm =>
    { outcome := (rm.unlock rc).outcome, object := some (rm.unlock rc).state,
      osCalls := (rm.unlock rc).osCalls }

/-- The functions of the build with `APP_NO_THREADS` defined; a handle is a `void*` to an
object of any type `α`. -/
def NoThreads.closeMutex {α : Type} (mtxHandle : Option α) : HandleResult α :=
  { outcome := .returned, object := mtxHandle, osCalls := [] }

/-- The function `XMLPlatformUtils::lockMutex` of the build with `APP_NO_THREADS`. -/
def NoThreads.lockMutex {α : Type} (mtxHandle : Option α) : HandleResult α :=
  { outcome := .returned, object := mtxHandle, osCalls := [] }

/-- The function `XMLPlatformUtils::makeMutex` of the build with `APP_NO_THREADS`:
`return 0`. -/
def NoThreads.makeMutex {α : Type} : Option α := none

/-- The function `XMLPlatformUtils::unlockMutex` of the build with `APP_NO_THREADS`. -/
def NoThreads.unlockMutex {α : Type} (mtxHandle : Option α) : HandleResult α :=
  { outcome := .returned, object := mtxHandle, osCalls := [] }

/-- A `RecursiveMutex` held by thread `T` with recursion count `n`. -/
def heldBy (T : pthread_t) (n : Int) : RecursiveMutex :=
  { mutex := some T, recursionCount := n, tid := T }

/-- A call on a `RecursiveMutex`. -/
inductive MutexCall where
  | lock
  | unlock
  deriving DecidableEq, Repr

/-- The call `c` made by thread `self`, the operating system reporting `rc`. -/
def MutexCall.run (c : MutexCall) (self : pthread_t) (rc : Int) (m : RecursiveMutex) :
    CallResult :=
  match c with
  | .lock => m.lock self rc
  | .unlock => m.unlock rc

/-- The calls `calls` made one after the other by thread `self`, every operating-system call
succeeding; `none` when one of the calls does not return. -/
def runCalls (self : pthread_t) : List MutexCall → RecursiveMutex → Option RecursiveMutex
  | [], m => some m
  | c :: cs, m =>
    if (c.run self 0 m).outcome = .returned then runCalls self cs (c.run self 0 m).state
    else none

/-- The number of `lock` calls less the number of `unlock` calls. -/
def depth (calls : List MutexCall) : Int :=
  (calls.count .lock : Int) - (calls.count .unlock : Int)

/-- A balanced, properly nested sequence of calls: no prefix has more `unlock` than `lock`
calls, and the whole has as many of each. -/
def Balanced (calls : List MutexCall) : Prop :=
  (∀ p, p <+: calls → 0 ≤ depth p) ∧ depth calls = 0

/-- A newly constructed `RecursiveMutex`. -/
def freshMutex : RecursiveMutex := { mutex := none, recursionCount := 0, tid := 0 }

/-- The `RecursiveMutex` that thread `T` has locked `d` times more than unlocked: new when
`d = 0`, held by `T` with recursion count `d` otherwise. -/
def nested (T : pthread_t) (d : Int) : RecursiveMutex :=
  if d = 0 then freshMutex else heldBy T d

/-- The sequence of `n` calls of `lock()` followed by `n` calls of `unlock()`. -/
def locksThenUnlocks (n : Nat) : List MutexCall :=
  List.replicate n .lock ++ List.replicate n .unlock

/-- One call in a history of a `RecursiveMutex`: the calling thread, the call and the status
the operating system reports to it. -/
structure MutexStep where
  self : pthread_t
  call : MutexCall
  rc : Int
  deriving DecidableEq, Repr

/-- The object after calls made in turn, each call ending, by returning or by throwing, before
the next one begins, so that no statement of another call runs in between; `none` when one of
the calls waits inside `pthread_mutex_lock`: no call made after it can end it without
overlapping it. -/
def callsInTurn : List MutexStep → RecursiveMutex → Option RecursiveMutex
  | [], m => some m
  | st :: rest, m =>
    if (st.call.run st.self st.rc m).outcome = .blocked then none
    else callsInTurn rest (st.call.run st.self st.rc m).state

/-- The data invariant of the spec: the recursion count is positive exactly when an owner is
recorded. -/
def CountOwnerInvariant (m : RecursiveMutex) : Prop :=
  0 < m.recursionCount ↔ m.tid ≠ 0

/-! ## Threads interleaved on one `RecursiveMutex`

Each statement of `lock()` and `unlock()` is one step of the calling thread; between two steps
of one thread any other thread may take steps. Every operating-system call succeeds. -/

/-- The statement of `lock()` or `unlock()` a thread is about to execute. -/
inductive Pc where
  /-- Outside both methods. -/
  | idle
  /-- The test `pthread_equal(tid, pthread_self())` of `lock()`, with `recursionCount++` and
  the return when it holds. -/
  | lockTest
  /-- The call `pthread_mutex_lock(&mutex)`. -/
  | lockAcquire
  /-- The statement `tid = pthread_self()`. -/
  | lockSetTid
  /-- The statement `recursionCount = 1` and the return of `lock()`. -/
  | lockSetCount
  /-- The test `--recursionCount > 0` of `unlock()`, with the return when it holds. -/
  | unlockDecrement
  /-- The call `pthread_mutex_unlock(&mutex)`. -/
  | unlockRelease
  /-- The statement `tid = 0` and the return of `unlock()`. -/
  | unlockClearTid
  deriving DecidableEq, Repr

/-- The threads that share one `RecursiveMutex`: the object, where each thread stands, and for
each thread the number of its `lock()` calls that have returned less the number of its
`unlock()` calls begun: a thread holds the lock while that number is positive. -/
structure Threads where
  object : RecursiveMutex
  pc : pthread_t → Pc
  holds : pthread_t → Int

/-- What the scheduler lets a thread do next: enter `lock()`, enter `unlock()`, or execute the
statement it stands at. -/
inductive Move where
  | callLock
  | callUnlock
  | step
  deriving DecidableEq, Repr

/-- The thread `t` now stands at `pc`. -/
def Threads.goto (s : Threads) (t : pthread_t) (pc : Pc) : Threads :=
  { s with pc := fun x => if x = t then pc else s.pc x }

/-- The number of locks thread `t` holds changes by `d`. -/
def Threads.addHolds (s : Threads) (t : pthread_t) (d : Int) : Threads :=
  { s with holds := fun x => if x = t then s.holds x + d else s.holds x }

/-- One move of thread `t`; `none` when the move cannot be made now: a call from inside a
method, a step outside both, or `pthread_mutex_lock` on a held mutex, where the thread
waits. -/
def Threads.move (t : pthread_t) (mv : Move) (s : Threads) : Option Threads :=
  match mv, s.pc t with
  | .callLock, .idle => some (s.goto t .lockTest)
  | .callUnlock, .idle => some ((s.goto t .unlockDecrement).addHolds t (-1))
  | .step, .lockTest =>
    if s.object.tid = t then
      some (({ s with object :=
        { s.object with recursionCount := wrapInt (s.object.recursionCount + 1) } }.goto t
          .idle).addHolds t 1)
    else some (s.goto t .lockAcquire)
  | .step, .lockAcquire =>
    match pthread_mutex_lock 0 t s.object.mutex with
    | none => none
    | some (_, mutex) => some ({ s with object := { s.object with mutex := mutex } }.goto t
        .lockSetTid)
  | .step, .lockSetTid =>
    some ({ s with object := { s.object with tid := t } }.goto t .lockSetCount)
  | .step, .lockSetCount =>
    some (({ s with object := { s.object with recursionCount := 1 } }.goto t .idle).addHolds
      t 1)
  | .step, .unlockDecrement =>
    let recursionCount := wrapInt (s.object.recursionCount - 1)
    let s := { s with object := { s.object with recursionCount := recursionCount } }
    if recursionCount > 0 then some (s.goto t .idle) else some (s.goto t .unlockRelease)
  | .step, .unlockRelease =>
    some ({ s with object :=
      { s.object with mutex := (pthread_mutex_unlock 0 s.object.mutex).2 } }.goto t
        .unlockClearTid)
  | .step, .unlockClearTid =>
    some ({ s with object := { s.object with tid := 0 } }.goto t .idle)
  | _, _ => none

/-- A schedule: the moves in the order they are made, each with the thread making it. -/
def Threads.run : List (pthread_t × Move) → Threads → Option Threads
  | [], s => some s
  | (t, mv) :: rest, s => (s.move t mv).bind (Threads.run rest)

/-- A new `RecursiveMutex` and every thread outside its methods. -/
def Threads.start : Threads :=
  { object := freshMutex, pc := fun _ => .idle, holds := fun _ => 0 }

/-- The schedule in which thread 1 locks and unlocks, thread 2 locks between the
`pthread_mutex_unlock` of thread 1 and its `tid = 0`, and thread 2, holding the lock, calls
`lock()` again and executes the test on `tid`. -/
def lateClearSchedule : List (pthread_t × Move) :=
  [(1, .callLock), (1, .step), (1, .step), (1, .step), (1, .step),
    (1, .callUnlock), (1, .step), (1, .step),
    (2, .callLock), (2, .step), (2, .step), (2, .step), (2, .step),
    (1, .step),
    (2, .callLock), (2, .step)]

/-! ## Emulated atomic operations -/

/-- Modelled from the spec: the reasons of `XMLPlatformUtils::panic`; the enumeration is
declared in `PlatformUtils.hpp`, which is not among the sources. -/
inductive PanicReasons where
  | Panic_NoTransService
  | Panic_NoDefTranscoder
  | Panic_CantFindLib
  | Panic_UnknownMsgDomain
  | Panic_CantLoadMsgDomain
  | Panic_SynchronizationErr
  | Panic_SystemInit
  deriving DecidableEq, Repr

/-- An access to the target location of an atomic operation. -/
inductive Access where
  | read
  | write
  deriving DecidableEq, Repr

/-- The part of the process an atomic operation works on: the content of the target, the
mutex `*gAtomicOpMutex`, the lines written to standard error, and the accesses made to the
target, each with whether `*gAtomicOpMutex` was held by the caller at that moment. -/
structure AtomicState (α : Type) where
  target : α
  gAtomicOpMutex : pthread_mutex_t
  stderr : List String
  accesses : List (Access × Bool)

/-- How an atomic operation ends: it returns a value, the process exits with a status, or
the caller waits inside `pthread_mutex_lock`. -/
inductive Ending (ρ : Type) where
  | returned (value : ρ)
  | exited (status : Int)
  | blocked
  deriving DecidableEq, Repr

/-- The function `XMLPlatformUtils::panic`: one line on standard error, then `exit(-1)`. -/
def panic {α ρ : Type} (reason : PanicReasons) (s : AtomicState α) : Ending ρ × AtomicState α :=
  let reasonStr :=
    if reason = .Panic_NoTransService then "Could not load a transcoding service"
    else if reason = .Panic_NoDefTranscoder then "Could not load a local code page transcoder"
    else if reason = .Panic_CantFindLib then "Could not find the xerces-c DLL"
    else if reason = .Panic_UnknownMsgDomain then "Unknown message domain"
    else if reason = .Panic_CantLoadMsgDomain then "Cannot load message domain"
    else if reason = .Panic_SynchronizationErr then "Cannot synchronize system or mutex"
    else if reason = .Panic_SystemInit then "Cannot initialize the system or mutex"
    else "Unknown reason"
  (.exited (-1), { s with stderr := s.stderr ++ [reasonStr ++ "\n"] })

/-- An access to the target: recorded with whether `self` holds `*gAtomicOpMutex`. -/
def AtomicState.access {α : Type} (self : pthread_t) (a : Access) (s : AtomicState α) :
    AtomicState α :=
  { s with accesses := s.accesses ++ [(a, decide (s.gAtomicOpMutex = some self))] }

/-- The function `XMLPlatformUtils::compareAndSwap` (threaded build) called by thread `self`
on the location `toFill` whose content is `s.target`; pointers are addresses. `lockRc` and
`unlockRc` are the statuses of the two operating-system calls. -/
def compareAndSwap (self : pthread_t) (lockRc unlockRc : Int) (newValue toCompare : Nat)
    (s : AtomicState Nat) : Ending Nat × AtomicState Nat :=
  -- if (pthread_mutex_lock( gAtomicOpMutex)) panic(Panic_SynchronizationErr);
  match pthread_mutex_lock lockRc self s.gAtomicOpMutex with
  | none => (.blocked, s)
  | some (r, mutex) =>
    let s := { s with gAtomicOpMutex := mutex }
    if r ≠ 0 then panic .Panic_SynchronizationErr s
    else
      -- void *retVal = *toFill;
      let retVal := s.target
      let s := s.access self .read
      -- if (*toFill == toCompare) *toFill = (void *)newValue;
      let s := s.access self .read
      let s :=
        if s.target = toCompare then { s.access self .write with target := newValue } else s
      -- if (pthread_mutex_unlock( gAtomicOpMutex)) panic(Panic_SynchronizationErr);
      match pthread_mutex_unlock unlockRc s.gAtomicOpMutex with
      | (r, mutex) =>
        let s := { s with gAtomicOpMutex := mutex }
        if r ≠ 0 then panic .Panic_SynchronizationErr s
        else
          -- return retVal;
          (.returned retVal, s)

/-- The function `XMLPlatformUtils::atomicIncrement` (threaded build) called by thread `self`
on the `int` whose content is `s.target`. `lockRc` and `unlockRc` are the statuses of the two
operating-system calls. -/
def atomicIncrement (self : pthread_t) (lockRc unlockRc : Int) (s : AtomicState Int) :
    Ending Int × AtomicState Int :=
  -- if (pthread_mutex_lock( gAtomicOpMutex)) panic(Panic_SynchronizationErr);
  match pthread_mutex_lock lockRc self s.gAtomicOpMutex with
  | none => (.blocked, s)
  | some (r, mutex) =>
    let s := { s with gAtomicOpMutex := mutex }
    if r ≠ 0 then panic .Panic_SynchronizationErr s
    else
      -- int tmp = ++location;
      let s := s.access self .read
      let s := { s.access self .write with target := wrapInt (s.target + 1) }
      let tmp := s.target
      -- if (pthread_mutex_unlock( gAtomicOpMutex)) panic(Panic_SynchronizationErr);
      match pthread_mutex_unlock unlockRc s.gAtomicOpMutex with
      | (r, mutex) =>
        let s := { s with gAtomicOpMutex := mutex }
        if r ≠ 0 then panic .Panic_SynchronizationErr s
        else
          -- return tmp;
          (.returned tmp, s)

/-- The function `XMLPlatformUtils::atomicDecrement` (threaded build) called by thread `self`
on the `int` whose content is `s.target`. `lockRc` and `unlockRc` are the statuses of the two
operating-system calls. -/
def atomicDecrement (self : pthread_t) (lockRc unlockRc : Int) (s : AtomicState Int) :
    Ending Int × AtomicState Int :=
  -- if (pthread_mutex_lock( gAtomicOpMutex)) panic(Panic_SynchronizationErr);
  match pthread_mutex_lock lockRc self s.gAtomicOpMutex with
  | none => (.blocked, s)
  | some (r, mutex) =>
    let s := { s with gAtomicOpMutex := mutex }
    if r ≠ 0 then panic .Panic_SynchronizationErr s
    else
      -- int tmp = --location;
      let s := s.access self .read
      let s := { s.access self .write with target := wrapInt (s.target - 1) }
      let tmp := s.target
      -- if (pthread_mutex_unlock( gAtomicOpMutex)) panic(Panic_SynchronizationErr);
      match pthread_mutex_unlock unlockRc s.gAtomicOpMutex with
      | (r, mutex) =>
        let s := { s with gAtomicOpMutex := mutex }
        if r ≠ 0 then panic .Panic_SynchronizationErr s
        else
          -- return tmp;
          (.returned tmp, s)

/-- The line `panic(Panic_SynchronizationErr)` writes to standard error. -/
def synchronizationErrLine : String := "Cannot synchronize system or mutex\n"

/-- The function `XMLPlatformUtils::compareAndSwap` of the build with `APP_NO_THREADS`, on the
location `toFill` whose content is `target`: the value returned and the content the call
leaves in the location. -/
def NoThreads.compareAndSwap (target : Nat) (newValue toCompare : Nat) : Nat × Nat :=
  -- void *retVal = *toFill;
  let retVal := target
  -- if (*toFill == toCompare) *toFill = (void *)newValue;
  let target := if target = toCompare then newValue else target
  -- return retVal;
  (retVal, target)

/-- The function `XMLPlatformUtils::atomicIncrement` of the build with `APP_NO_THREADS`, on the
`int` whose content is `location`: the value returned and the content the call leaves. -/
def NoThreads.atomicIncrement (location : Int) : Int × Int :=
  -- return ++location;
  let location := wrapInt (location + 1)
  (location, location)

/-- The function `XMLPlatformUtils::atomicDecrement` of the build with `APP_NO_THREADS`, on the
`int` whose content is `location`: the value returned and the content the call leaves. -/
def NoThreads.atomicDecrement (location : Int) : Int × Int :=
  -- return --location;
  let location := wrapInt (location - 1)
  (location, location)

/-! ## Notions used to state the claims -/

/-- A path separator: the forward slash or the backslash. -/
def isSlash (c : XMLCh) : Bool := c == chForwardSlash || c == chBackSlash

/-- The relative path made of `k` copies of the segment `../`. -/
def dotDots (k : Nat) : List XMLCh := (List.replicate k (xml "../")).flatten

/-- The character `c` with the backslash replaced by the forward slash. -/
def normSlash (c : XMLCh) : XMLCh := if c = chBackSlash then chForwardSlash else c

/-- The path `s` with every backslash replaced by the forward slash. -/
def norm (s : List XMLCh) : List XMLCh := s.map normSlash

/-! ## Lemmas on characters -/

theorem charAt_append_add (p s : List XMLCh) (i : Nat) :
    charAt (p ++ s) (p.length + i) = charAt s i := by
  simp [charAt, List.getD_eq_getElem?_getD, List.getElem?_append_right]

theorem charAt_append_length (p s : List XMLCh) :
    charAt (p ++ s) p.length = charAt s 0 := by
  simpa using charAt_append_add p s 0

theorem charAt_of_le (s : List XMLCh) (i : Nat) (h : s.length ≤ i) : charAt s i = 0 := by
  simp [charAt, List.getD_eq_getElem?_getD, List.getElem?_eq_none h]

theorem charAt_of_lt (s : List XMLCh) (i : Nat) (h : i < s.length) : charAt s i = s[i] := by
  simp [charAt, List.getD_eq_getElem?_getD, List.getElem?_eq_getElem h]

theorem charAt_lt_of_ne_zero (s : List XMLCh) (i : Nat) (h : charAt s i ≠ 0) : i < s.length := by
  by_contra hn
  exact h (charAt_of_le s i (Nat.le_of_not_lt hn))

theorem notSlash_zero : notSlash 0 = true := by decide

theorem notSlash_period : notSlash chPeriod = true := by decide

/-! ## Lemmas on the backward scan -/

theorem scanBack_neg (b : List XMLCh) (fuel : Nat) (z : Int) (h : z < 0) :
    scanBack b fuel z = z := by
  cases fuel with
  | zero => rfl
  | succ n =>
    have : ¬ (0 ≤ z) := by omega
    simp [scanBack, this]

theorem scanBack_slash (b : List XMLCh) (fuel : Nat) (i : Nat)
    (h : notSlash (charAt b i) = false) : scanBack b fuel (i : Int) = (i : Int) := by
  cases fuel with
  | zero => rfl
  | succ n => simp [scanBack, h]

/-- Enough fuel: once `fuel` exceeds `basePtr + 1`, the result of the scan no longer depends
on it. -/
theorem scanBack_fuel (b : List XMLCh) :
    ∀ (f1 f2 : Nat) (basePtr : Int), basePtr + 1 < f1 → basePtr + 1 < f2 →
      scanBack b f1 basePtr = scanBack b f2 basePtr := by
  intro f1
  induction f1 with
  | zero =>
    intro f2 basePtr h1 _
    rw [scanBack_neg b 0 basePtr (by omega), scanBack_neg b f2 basePtr (by omega)]
  | succ n ih =>
    intro f2 basePtr h1 h2
    by_cases hneg : basePtr < 0
    · rw [scanBack_neg b _ basePtr hneg, scanBack_neg b f2 basePtr hneg]
    · obtain ⟨m, rfl⟩ : ∃ m, f2 = m + 1 := ⟨f2 - 1, by omega⟩
      simp only [scanBack]
      split
      · exact ih m (basePtr - 1) (by omega) (by omega)
      · rfl

/-- With enough fuel the scan ends where the source loop ends: before the start of the base
path or on a separator. -/
theorem scanBack_exit (b : List XMLCh) :
    ∀ (fuel : Nat) (basePtr : Int), basePtr + 1 < fuel →
      scanBack b fuel basePtr < 0 ∨
        notSlash (charAt b (scanBack b fuel basePtr).toNat) = false := by
  intro fuel
  induction fuel with
  | zero =>
    intro basePtr h
    left
    rw [scanBack_neg b 0 basePtr (by omega)]
    omega
  | succ n ih =>
    intro basePtr h
    simp only [scanBack]
    split
    · exact ih (basePtr - 1) (by omega)
    · rename_i hc
      by_cases hneg : basePtr < 0
      · exact Or.inl hneg
      · right
        have h0 : 0 ≤ basePtr := by omega
        simpa [h0] using hc

theorem scanBack_hit (p : List XMLCh) (c : XMLCh) (q : List XMLCh)
    (hc : notSlash c = false) :
    ∀ (m fuel : Nat), m ≤ q.length → (∀ x ∈ q.take m, notSlash x = true) → m < fuel →
      scanBack (p ++ c :: q) fuel ((p.length + m : Nat) : Int) = (p.length : Int) := by
  intro m
  induction m with
  | zero =>
    intro fuel _ _ _
    have hch : charAt (p ++ c :: q) (p.length + 0) = c := by
      rw [charAt_append_add]; rfl
    apply scanBack_slash
    rw [hch]; exact hc
  | succ m ih =>
    intro fuel hm hq hf
    obtain ⟨f, rfl⟩ : ∃ f, fuel = f + 1 := ⟨fuel - 1, by omega⟩
    have hlt : m < q.length := by omega
    have hch : charAt (p ++ c :: q) (p.length + (m + 1)) = q[m] := by
      rw [charAt_append_add]
      simp [charAt, List.getD_eq_getElem?_getD, List.getElem?_eq_getElem hlt]
    have hns : notSlash q[m] = true := by
      apply hq
      rw [List.mem_take_iff_getElem]
      exact ⟨m, by simp; omega, rfl⟩
    have hrec : ((p.length + (m + 1) : Nat) : Int) - 1 = ((p.length + m : Nat) : Int) := by
      push_cast; ring
    simp only [scanBack]
    rw [Int.toNat_ofNat, hch, hns, hrec]
    simp only [ge_iff_le, Int.ofNat_zero_le, decide_True, Bool.and_self, if_true]
    apply ih f (by omega) _ (by omega)
    intro x hx
    apply hq
    exact (List.take_subset_take_left q (Nat.le_succ m)) hx

theorem scanBack_miss (b : List XMLCh) (hb : ∀ x ∈ b, notSlash x = true) :
    ∀ (i fuel : Nat), i < fuel → scanBack b fuel (i : Int) = -1 := by
  have hall : ∀ i, notSlash (charAt b i) = true := by
    intro i
    by_cases h : i < b.length
    · rw [charAt_of_lt b i h]; exact hb _ (List.getElem_mem h)
    · rw [charAt_of_le b i (Nat.le_of_not_lt h)]; exact notSlash_zero
  intro i
  induction i with
  | zero =>
    intro fuel hf
    obtain ⟨f, rfl⟩ : ∃ f, fuel = f + 1 := ⟨fuel - 1, by omega⟩
    simp only [scanBack]
    simp [hall]
    exact scanBack_neg b f (-1) (by omega)
  | succ i ih =>
    intro fuel hf
    obtain ⟨f, rfl⟩ : ∃ f, fuel = f + 1 := ⟨fuel - 1, by omega⟩
    simp only [scanBack]
    rw [Int.toNat_ofNat, hall]
    have hrec : ((i + 1 : Nat) : Int) - 1 = (i : Int) := by push_cast; ring
    rw [hrec]
    simp only [ge_iff_le, Int.ofNat_zero_le, decide_True, Bool.and_self, if_true]
    exact ih f (by omega)

/-! ## Lemmas on the copy of the base part -/

theorem copyBase_eq_take (b : List XMLCh) (n : Nat) (h : n < b.length) :
    copyBase b (n : Int) = b.take (n + 1) := by
  have hn : ((n : Int) + 1).toNat = n + 1 := by omega
  unfold copyBase
  rw [hn]
  apply List.ext_getElem
  · simp; omega
  · intro i h1 h2
    have hi : i < b.length := by simp at h1; omega
    simp [charAt_of_lt b i hi]

theorem copyBase_append (p : List XMLCh) (c : XMLCh) (q : List XMLCh) :
    copyBase (p ++ c :: q) (p.length : Int) = p ++ [c] := by
  rw [copyBase_eq_take _ _ (by simp)]
  simp [List.take_append_eq_append_take]

theorem copyBase_neg (b : List XMLCh) (z : Int) (h : z < 0) : copyBase b z = [] := by
  have hz : (z + 1).toNat = 0 := by omega
  simp [copyBase, hz]

/-! ## Lemmas on the loop over the leading periods -/

theorem weaveLoop_stop (b s : List XMLCh) (fuel : Nat) (bp : Int) (i : Nat)
    (h : charAt s i ≠ chPeriod) : weaveLoop b s fuel bp i = (bp, i) := by
  cases fuel with
  | zero => rfl
  | succ n => simp [weaveLoop, h]

theorem weaveLoop_shift (b p s : List XMLCh) :
    ∀ (fuel : Nat) (bp : Int) (i : Nat),
      weaveLoop b (p ++ s) fuel bp (p.length + i) =
        ((weaveLoop b s fuel bp i).1, p.length + (weaveLoop b s fuel bp i).2) := by
  intro fuel
  induction fuel with
  | zero => intro bp i; rfl
  | succ n ih =>
    intro bp i
    have e1 : p.length + i + 1 = p.length + (i + 1) := by omega
    have e2 : p.length + (i + 1) + 1 = p.length + (i + 2) := by omega
    have e3 : p.length + (i + 2) + 1 = p.length + (i + 3) := by omega
    simp only [weaveLoop]
    rw [e1, charAt_append_add, charAt_append_add]
    by_cases h0 : charAt s i = chPeriod
    · by_cases h1 : charAt s (i + 1) = chPeriod
      · simp only [h0, h1, bne_self_eq_false, Bool.false_eq_true, if_false, beq_self_eq_true,
          if_true, e2, charAt_append_add]
        by_cases h2 : (notSlash (charAt s (i + 2)) && charAt s (i + 2) != 0) = true
        · simp [h2]
        · by_cases h3 : charAt s (i + 2) = 0
          · simp [h2, h3, ih]
          · simp [h2, h3, ih, e3]
      · have h1b : (charAt s (i + 1) == chPeriod) = false := by simpa using h1
        simp only [h0, h1b, bne_self_eq_false, Bool.false_eq_true, if_false, charAt_append_add]
        by_cases h2 : (notSlash (charAt s (i + 1)) && charAt s (i + 1) != 0) = true
        · simp [h2]
        · by_cases h3 : charAt s (i + 1) = 0
          · simp [h2, h3, ih]
          · simp [h2, h3, ih, e2]
    · simp [h0]

theorem weaveLoop_shift_zero (b p s : List XMLCh) (fuel : Nat) (bp : Int) :
    weaveLoop b (p ++ s) fuel bp p.length =
      ((weaveLoop b s fuel bp 0).1, p.length + (weaveLoop b s fuel bp 0).2) := by
  simpa using weaveLoop_shift b p s fuel bp 0

/-- Enough fuel: once `fuel` exceeds the number of characters left, the result of the loop no
longer depends on it. -/
theorem weaveLoop_fuel (b s : List XMLCh) :
    ∀ (f1 f2 : Nat) (bp : Int) (i : Nat), s.length - i < f1 → s.length - i < f2 →
      weaveLoop b s f1 bp i = weaveLoop b s f2 bp i := by
  intro f1
  induction f1 with
  | zero => intro f2 bp i h1; omega
  | succ n ih =>
    intro f2 bp i h1 h2
    obtain ⟨m, rfl⟩ : ∃ m, f2 = m + 1 := ⟨f2 - 1, by omega⟩
    by_cases h0 : charAt s i = chPeriod
    · have hi : i < s.length := charAt_lt_of_ne_zero s i (by rw [h0]; decide)
      simp only [weaveLoop]
      by_cases h1 : charAt s (i + 1) = chPeriod
      · have hi1 : i + 1 < s.length := charAt_lt_of_ne_zero s (i + 1) (by rw [h1]; decide)
        simp only [h0, h1, bne_self_eq_false, Bool.false_eq_true, if_false, beq_self_eq_true,
          if_true]
        by_cases h2 : (notSlash (charAt s (i + 1 + 1)) && charAt s (i + 1 + 1) != 0) = true
        · simp [h2]
        · by_cases h3 : charAt s (i + 1 + 1) = 0
          · simp only [h2, h3]
            simp
            exact ih m _ _ (by omega) (by omega)
          · simp only [h2]
            simp [h3]
            exact ih m _ _ (by omega) (by omega)
      · have h1b : (charAt s (i + 1) == chPeriod) = false := by simpa using h1
        simp only [h0, h1b, bne_self_eq_false, Bool.false_eq_true, if_false]
        by_cases h2 : (notSlash (charAt s (i + 1)) && charAt s (i + 1) != 0) = true
        · simp [h2]
        · by_cases h3 : charAt s (i + 1) = 0
          · simp only [h2, h3]
            simp
            exact ih m _ _ (by omega) (by omega)
          · simp only [h2]
            simp [h3]
            exact ih m _ _ (by omega) (by omega)
    · rw [weaveLoop_stop b s _ bp i h0, weaveLoop_stop b s _ bp i h0]

/-! ## The shape of `weavePaths` on a base path with a directory part -/

/-- The first character of a non-empty C string is not the terminator. -/
theorem charAt_zero_ne (p : List XMLCh) (c : XMLCh) (q : List XMLCh)
    (h0 : (0 : XMLCh) ∉ p ++ c :: q) : charAt (p ++ c :: q) 0 ≠ 0 := by
  intro h
  apply h0
  have hlt : 0 < (p ++ c :: q).length := by simp
  rw [charAt_of_lt _ _ hlt] at h
  rw [← h]
  exact List.getElem_mem hlt

/-- The value of `basePtr` before the loop over the periods: the offset of the last slash. -/
theorem initial_basePtr (p : List XMLCh) (c : XMLCh) (q : List XMLCh)
    (hc : notSlash c = false) (hq : ∀ x ∈ q, notSlash x = true) :
    (if notSlash (charAt (p ++ c :: q)
          ((stringLen (some (p ++ c :: q)) : Int) - 1).toNat) = true then
        scanBack (p ++ c :: q) ((p ++ c :: q).length + 1)
          ((stringLen (some (p ++ c :: q)) : Int) - 1)
      else (stringLen (some (p ++ c :: q)) : Int) - 1) = (p.length : Int) := by
  have hlen : ((stringLen (some (p ++ c :: q)) : Int) - 1) = ((p.length + q.length : Nat) : Int) := by
    simp [stringLen]; ring
  rw [hlen, Int.toNat_ofNat]
  have hscan : scanBack (p ++ c :: q) ((p ++ c :: q).length + 1)
      ((p.length + q.length : Nat) : Int) = (p.length : Int) := by
    apply scanBack_hit p c q hc q.length _ (le_refl _)
    · intro x hx
      rw [List.take_length] at hx
      exact hq x hx
    · simp; omega
  split
  · exact hscan
  · rename_i hns
    have hns2 : notSlash (charAt (p ++ c :: q) (p.length + q.length)) = false := by
      simpa using hns
    rw [← hscan]
    exact (scanBack_slash _ _ _ hns2).symm

theorem weavePaths_dir (p : List XMLCh) (c : XMLCh) (q rel : List XMLCh)
    (hc : notSlash c = false) (hq : ∀ x ∈ q, notSlash x = true)
    (h0 : (0 : XMLCh) ∉ p ++ c :: q) :
    weavePaths (some (p ++ c :: q)) rel =
      copyBase (p ++ c :: q)
          (weaveLoop (p ++ c :: q) rel (rel.length + 1) (p.length : Int) 0).1 ++
        rel.drop (weaveLoop (p ++ c :: q) rel (rel.length + 1) (p.length : Int) 0).2 := by
  have hz := charAt_zero_ne p c q h0
  have hb := initial_basePtr p c q hc hq
  simp only [weavePaths, hz, if_false]
  rw [hb]
  have hnn : ¬ ((p.length : Int) < 0) := by omega
  simp only [hnn, if_false, copyString]

theorem notSlash_eq_false_iff (c : XMLCh) :
    notSlash c = false ↔ (c = chForwardSlash ∨ c = chBackSlash) := by
  unfold notSlash
  by_cases h1 : c = chForwardSlash <;> by_cases h2 : c = chBackSlash <;> simp [h1, h2]

theorem notSlash_eq_true_iff (c : XMLCh) :
    notSlash c = true ↔ (c ≠ chForwardSlash ∧ c ≠ chBackSlash) := by
  unfold notSlash
  by_cases h1 : c = chForwardSlash <;> by_cases h2 : c = chBackSlash <;> simp [h1, h2]

theorem isSlash_eq_not (c : XMLCh) : isSlash c = !notSlash c := by
  unfold isSlash notSlash
  cases h1 : (c == chForwardSlash) <;> cases h2 : (c == chBackSlash) <;> simp [bne, h1, h2]

/-- Every list splits at its last separator: the part after it holds no separator, the part
up to it is empty or ends in a separator. -/
theorem split_last_slash (m : List XMLCh) :
    ∃ m1 m2, m = m1 ++ m2 ∧ (∀ x ∈ m2, notSlash x = true) ∧
      (m1 = [] ∨ ∃ m0 e, m1 = m0 ++ [e] ∧ notSlash e = false) := by
  induction m using List.reverseRecOn with
  | nil => exact ⟨[], [], rfl, by simp, Or.inl rfl⟩
  | append_singleton m a ih =>
    obtain ⟨m1, m2, hm, h2, h1⟩ := ih
    by_cases ha : notSlash a = true
    · refine ⟨m1, m2 ++ [a], by simp [hm], ?_, h1⟩
      intro x hx
      rcases List.mem_append.mp hx with h | h
      · exact h2 x h
      · simp at h; rw [h]; exact ha
    · refine ⟨m ++ [a], [], by simp, by simp, Or.inr ⟨m, a, rfl, by simpa using ha⟩⟩

/-- A path that holds a separator splits at its last separator. -/
theorem exists_last_slash (b : List XMLCh)
    (h : ∃ x ∈ b, x = chForwardSlash ∨ x = chBackSlash) :
    ∃ p c q, b = p ++ c :: q ∧ notSlash c = false ∧ ∀ x ∈ q, notSlash x = true := by
  obtain ⟨m1, m2, hm, h2, h1⟩ := split_last_slash b
  rcases h1 with h1 | ⟨m0, e, h1, he⟩
  · obtain ⟨x, hx, hs⟩ := h
    rw [hm, h1, List.nil_append] at hx
    have := h2 x hx
    rw [(notSlash_eq_false_iff x).mpr hs] at this
    exact absurd this (by simp)
  · exact ⟨m0, e, m2, by simp [hm, h1], he, h2⟩

theorem charAt_zero_of_head (r : List XMLCh) (h : r.head? ≠ some chPeriod) :
    charAt r 0 ≠ chPeriod := by
  cases r with
  | nil => simp [charAt, chPeriod]
  | cons a t =>
    intro hc
    apply h
    simpa [charAt] using hc

/-- One iteration of the loop on a single-period segment: the segment is skipped, `basePtr`
is unchanged. -/
theorem weaveLoop_dot (b : List XMLCh) (c : XMLCh) (r : List XMLCh) (hc : notSlash c = false)
    (fuel : Nat) (bp : Int) :
    weaveLoop b (chPeriod :: c :: r) (fuel + 1) bp 0 =
      ((weaveLoop b r fuel bp 0).1, 2 + (weaveLoop b r fuel bp 0).2) := by
  have hcp : (c == chPeriod) = false := by
    rcases (notSlash_eq_false_iff c).mp hc with h | h <;> rw [h] <;> decide
  have hc0 : c ≠ 0 := by
    rcases (notSlash_eq_false_iff c).mp hc with h | h <;> rw [h] <;> decide
  have hstep : weaveLoop b (chPeriod :: c :: r) (fuel + 1) bp 0 =
      weaveLoop b (chPeriod :: c :: r) fuel bp 2 := by
    have e0 : charAt (chPeriod :: c :: r) 0 = chPeriod := rfl
    have e1 : charAt (chPeriod :: c :: r) 1 = c := rfl
    simp [weaveLoop, e0, e1, hcp, hc, hc0]
  rw [hstep]
  exact weaveLoop_shift_zero b [chPeriod, c] r fuel bp

/-- One iteration of the loop on a double-period segment: the segment is skipped and one level
of the base is popped. -/
theorem weaveLoop_dotdot (b : List XMLCh) (c : XMLCh) (r : List XMLCh)
    (hc : notSlash c = false) (fuel : Nat) (bp : Int) :
    weaveLoop b (chPeriod :: chPeriod :: c :: r) (fuel + 1) bp 0 =
      ((weaveLoop b r fuel (popLevel b bp) 0).1,
        3 + (weaveLoop b r fuel (popLevel b bp) 0).2) := by
  have hc0 : c ≠ 0 := by
    rcases (notSlash_eq_false_iff c).mp hc with h | h <;> rw [h] <;> decide
  have hstep : weaveLoop b (chPeriod :: chPeriod :: c :: r) (fuel + 1) bp 0 =
      weaveLoop b (chPeriod :: chPeriod :: c :: r) fuel (popLevel b bp) 3 := by
    have e0 : charAt (chPeriod :: chPeriod :: c :: r) 0 = chPeriod := rfl
    have e1 : charAt (chPeriod :: chPeriod :: c :: r) 1 = chPeriod := rfl
    have e2 : charAt (chPeriod :: chPeriod :: c :: r) 2 = c := rfl
    simp [weaveLoop, e0, e1, e2, hc, hc0]
  rw [hstep]
  exact weaveLoop_shift_zero b [chPeriod, chPeriod, c] r fuel (popLevel b bp)

theorem weavePaths_skip_dot (base : List XMLCh) (c : XMLCh) (r : List XMLCh)
    (hc : notSlash c = false)
    (hsep : ∃ x ∈ base, x = chForwardSlash ∨ x = chBackSlash) (h0 : (0 : XMLCh) ∉ base) :
    weavePaths (some base) (chPeriod :: c :: r) = weavePaths (some base) r := by
  obtain ⟨p, d, q, rfl, hd, hq⟩ := exists_last_slash base hsep
  rw [weavePaths_dir p d q _ hd hq h0, weavePaths_dir p d q _ hd hq h0]
  have hlen : (chPeriod :: c :: r).length + 1 = (r.length + 2) + 1 := by simp
  rw [hlen, weaveLoop_dot _ c r hc,
    weaveLoop_fuel _ r (r.length + 2) (r.length + 1) _ 0 (by omega) (by omega)]
  have hdrop : ∀ k, List.drop (2 + k) (chPeriod :: c :: r) = List.drop k r := by
    intro k; rw [Nat.add_comm]; rfl
  simp only [hdrop]

/-! ## Popping levels of the base -/

theorem dotDots_succ (k : Nat) :
    dotDots (k + 1) = chPeriod :: chPeriod :: chForwardSlash :: dotDots k := by
  have hx : xml "../" = [chPeriod, chPeriod, chForwardSlash] := by decide
  simp [dotDots, List.replicate_succ, hx]

theorem dotDots_length (k : Nat) : (dotDots k).length = 3 * k := by
  induction k with
  | zero => rfl
  | succ k ih => rw [dotDots_succ]; simp [ih]; omega

/-- The loop on `k` leading `../` segments pops `k` levels and stops behind the segments. -/
theorem weaveLoop_dotDots (b r : List XMLCh) (hr : charAt r 0 ≠ chPeriod) :
    ∀ (k fuel : Nat) (bp : Int), k < fuel →
      weaveLoop b (dotDots k ++ r) fuel bp 0 = ((popLevel b)^[k] bp, 3 * k) := by
  intro k
  induction k with
  | zero =>
    intro fuel bp _
    simpa [dotDots] using weaveLoop_stop b r fuel bp 0 hr
  | succ k ih =>
    intro fuel bp hf
    obtain ⟨f, rfl⟩ : ∃ f, fuel = f + 1 := ⟨fuel - 1, by omega⟩
    rw [dotDots_succ]
    simp only [List.cons_append]
    rw [weaveLoop_dotdot b chForwardSlash _ (by decide) f bp, ih f _ (by omega)]
    simp only [Function.iterate_succ, Function.comp_apply, Prod.mk.injEq, true_and]
    omega

/-- Popping `k` levels from a separator that has exactly `k` separators between it and an
earlier separator `c` arrives at `c`. -/
theorem popLevel_iterate (p : List XMLCh) (c : XMLCh) (hc : notSlash c = false) :
    ∀ (k : Nat) (mid rest : List XMLCh), mid.countP isSlash = k →
      (mid = [] ∨ ∃ m d, mid = m ++ [d] ∧ notSlash d = false) →
      (popLevel (p ++ c :: (mid ++ rest)))^[k] ((p.length + mid.length : Nat) : Int) =
        (p.length : Int) := by
  intro k
  induction k with
  | zero =>
    intro mid rest hcount hend
    rcases hend with h | ⟨m, d, h, hd⟩
    · simp [h]
    · rw [h] at hcount
      simp [List.countP_append, isSlash_eq_not, hd] at hcount
  | succ k ih =>
    intro mid rest hcount hend
    rcases hend with h | ⟨m, d, h, hd⟩
    · rw [h] at hcount; simp at hcount
    · subst h
      have hm : m.countP isSlash = k := by
        simp [List.countP_append, isSlash_eq_not, hd] at hcount
        exact hcount
      obtain ⟨m1, m2, hsplit, h2, h1⟩ := split_last_slash m
      have hm2 : m2.countP isSlash = 0 := by
        rw [List.countP_eq_zero]
        intro x hx
        simp [isSlash_eq_not, h2 x hx]
      have hm1 : m1.countP isSlash = k := by
        rw [hsplit, List.countP_append, hm2] at hm
        simpa using hm
      rw [Function.iterate_succ, Function.comp_apply]
      have hpop : popLevel (p ++ c :: (m ++ [d] ++ rest))
          ((p.length + (m ++ [d]).length : Nat) : Int) = ((p.length + m1.length : Nat) : Int) := by
        unfold popLevel
        have hidx : ((p.length + (m ++ [d]).length : Nat) : Int) - 1 =
            ((p.length + m.length : Nat) : Int) := by
          simp; ring
        rw [hidx]
        rcases h1 with h1 | ⟨m0, e, h1, he⟩
        · subst h1
          simp only [List.nil_append] at hsplit
          subst hsplit
          have := scanBack_hit p c (m ++ [d] ++ rest) hc m.length
            ((p ++ c :: (m ++ [d] ++ rest)).length + 1) (by simp) (by
              intro x hx
              apply h2
              simpa [List.take_append_eq_append_take] using hx) (by simp; omega)
          simpa using this
        · subst h1
          subst hsplit
          have := scanBack_hit (p ++ c :: m0) e (m2 ++ [d] ++ rest) he m2.length
            (((p ++ c :: m0) ++ e :: (m2 ++ [d] ++ rest)).length + 1) (by simp) (by
              intro x hx
              apply h2
              simpa [List.take_append_eq_append_take] using hx) (by simp; omega)
          have hlist : (p ++ c :: m0) ++ e :: (m2 ++ [d] ++ rest) =
              p ++ c :: (m0 ++ [e] ++ m2 ++ [d] ++ rest) := by simp
          rw [hlist] at this
          have hi1 : ((p ++ c :: m0).length + m2.length : Nat) =
              p.length + (m0 ++ [e] ++ m2).length := by simp; omega
          have hi2 : ((p ++ c :: m0).length : Int) = ((p.length + (m0 ++ [e]).length : Nat) : Int) := by
            simp
          rw [hi1, hi2] at this
          exact this
      rw [hpop]
      have hrest : p ++ c :: (m ++ [d] ++ rest) = p ++ c :: (m1 ++ (m2 ++ [d] ++ rest)) := by
        rw [hsplit]; simp
      rw [hrest]
      exact ih m1 (m2 ++ [d] ++ rest) hm1 h1

/-! ## Path weaving: the claims -/

/-- C1: for a base path `p ++ c :: q` whose last separator is `c` (no separator in `q`) and a
relative path whose first character is not a period (possibly empty), `weavePaths` returns the
base path up to and including that separator followed by the whole relative path; when the
base path ends in the separator (`q` empty) this is the base path followed by the relative
path. -/
theorem weavePaths_plain_relative (p : List XMLCh) (c : XMLCh) (q rel : List XMLCh)
    (hc : c = chForwardSlash ∨ c = chBackSlash)
    (hq : ∀ x ∈ q, x ≠ chForwardSlash ∧ x ≠ chBackSlash)
    (h0 : (0 : XMLCh) ∉ p ++ c :: q)
    (hrel : rel.head? ≠ some chPeriod) :
    weavePaths (some (p ++ c :: q)) rel = p ++ [c] ++ rel ∧
      (q = [] → weavePaths (some (p ++ c :: q)) rel = (p ++ c :: q) ++ rel) := by
  have hmain : weavePaths (some (p ++ c :: q)) rel = p ++ [c] ++ rel := by
    rw [weavePaths_dir p c q rel ((notSlash_eq_false_iff c).mpr hc)
      (fun x hx => (notSlash_eq_true_iff x).mpr (hq x hx)) h0]
    rw [weaveLoop_stop _ rel _ _ 0 (charAt_zero_of_head rel hrel)]
    simp [copyBase_append]
  refine ⟨hmain, ?_⟩
  intro hqe
  rw [hmain, hqe]

theorem weavePaths_plain_relative_witness :
    weavePaths (some (xml "/a/b/c.xml")) (xml "d.xml") = xml "/a/b/d.xml" :=
  (weavePaths_plain_relative (xml "/a/b") chForwardSlash (xml "c.xml") (xml "d.xml")
    (by decide) (by decide) (by decide) (by decide)).1

/-- C2: for `k ≥ 1`, a base path `p ++ c :: mid` in which the separator `c` is followed by
exactly `k` further separators (so `c` is the `(k+1)`-th separator from the end), and a
remainder `r` that does not begin with a period, `weavePaths` on `k` copies of `../` followed
by `r` returns the base path up to and including `c`, followed by `r`. -/
theorem weavePaths_dotdot_segments (k : Nat) (hk : 1 ≤ k) (p : List XMLCh) (c : XMLCh)
    (mid r : List XMLCh)
    (hc : c = chForwardSlash ∨ c = chBackSlash)
    (hmid : mid.countP isSlash = k)
    (h0 : (0 : XMLCh) ∉ p ++ c :: mid)
    (hr : r.head? ≠ some chPeriod) :
    weavePaths (some (p ++ c :: mid)) (dotDots k ++ r) = p ++ [c] ++ r := by
  have hcs := (notSlash_eq_false_iff c).mpr hc
  obtain ⟨m1, m2, hsplit, h2, h1⟩ := split_last_slash mid
  have hm2 : m2.countP isSlash = 0 := by
    rw [List.countP_eq_zero]
    intro x hx
    simp [isSlash_eq_not, h2 x hx]
  have hm1 : m1.countP isSlash = k := by
    rw [hsplit, List.countP_append, hm2] at hmid
    simpa using hmid
  rcases h1 with h1 | ⟨m0, e, h1, he⟩
  · rw [h1] at hm1
    simp at hm1
    omega
  · have hbase : p ++ c :: mid = (p ++ c :: m0) ++ e :: m2 := by
      rw [hsplit, h1]; simp
    have hloop := weaveLoop_dotDots ((p ++ c :: m0) ++ e :: m2) r (charAt_zero_of_head r hr) k
      ((dotDots k ++ r).length + 1) ((p ++ c :: m0).length : Int)
      (by rw [List.length_append, dotDots_length]; omega)
    have hiter := popLevel_iterate p c hcs k m1 m2 hm1 (Or.inr ⟨m0, e, h1, he⟩)
    have hlist : p ++ c :: (m1 ++ m2) = (p ++ c :: m0) ++ e :: m2 := by
      rw [h1]; simp
    have hidx : ((p.length + m1.length : Nat) : Int) = ((p ++ c :: m0).length : Int) := by
      rw [h1]; simp
    rw [hlist, hidx] at hiter
    rw [hiter] at hloop
    rw [hbase] at h0 ⊢
    rw [weavePaths_dir (p ++ c :: m0) e m2 _ he h2 h0, hloop]
    simp only
    rw [← hlist, copyBase_append p c (m1 ++ m2)]
    have hdrop : List.drop (3 * k) (dotDots k ++ r) = r := by
      rw [← dotDots_length k]
      exact List.drop_left (dotDots k) r
    rw [hdrop]

theorem weavePaths_dotdot_segments_witness :
    weavePaths (some (xml "/a/b/c.xml")) (xml "../d.xml") = xml "/a/d.xml" ∧
      weavePaths (some (xml "/a/b/c.xml")) (xml "../../d.xml") = xml "/d.xml" :=
  ⟨weavePaths_dotdot_segments 1 (by decide) (xml "/a") chForwardSlash (xml "b/c.xml")
      (xml "d.xml") (by decide) (by decide) (by decide) (by decide),
    weavePaths_dotdot_segments 2 (by decide) [] chForwardSlash (xml "a/b/c.xml")
      (xml "d.xml") (by decide) (by decide) (by decide) (by decide)⟩

/-- C3: for a base path that holds a separator, a leading `./` or `.\` segment of the relative
path is discarded: `weavePaths` gives the same result as on the relative path without it. -/
theorem weavePaths_dot_segment (base r : List XMLCh)
    (hsep : ∃ x ∈ base, x = chForwardSlash ∨ x = chBackSlash) (h0 : (0 : XMLCh) ∉ base) :
    weavePaths (some base) (chPeriod :: chForwardSlash :: r) = weavePaths (some base) r ∧
      weavePaths (some base) (chPeriod :: chBackSlash :: r) = weavePaths (some base) r :=
  ⟨weavePaths_skip_dot base chForwardSlash r (by decide) hsep h0,
    weavePaths_skip_dot base chBackSlash r (by decide) hsep h0⟩

theorem weavePaths_dot_segment_witness :
    weavePaths (some (xml "/a/b/c.xml")) (xml "./d.xml") = xml "/a/b/d.xml" :=
  ((weavePaths_dot_segment (xml "/a/b/c.xml") (xml "d.xml")
    ⟨chForwardSlash, by decide, Or.inl rfl⟩ (by decide)).1).trans (by decide)

/-- C4: when the base path is null, empty, or holds neither `/` nor `\`, `weavePaths` returns
the relative path character for character, whatever the relative path begins with. -/
theorem weavePaths_no_directory (base : Option (List XMLCh)) (rel : List XMLCh)
    (h : base = none ∨ base = some [] ∨
      ∃ b, base = some b ∧ ∀ x ∈ b, x ≠ chForwardSlash ∧ x ≠ chBackSlash) :
    weavePaths base rel = rel := by
  have hnosep : ∀ b : List XMLCh, (∀ x ∈ b, x ≠ chForwardSlash ∧ x ≠ chBackSlash) →
      weavePaths (some b) rel = rel := by
    intro b hb
    have hb2 : ∀ x ∈ b, notSlash x = true := fun x hx => (notSlash_eq_true_iff x).mpr (hb x hx)
    simp only [weavePaths, copyString, List.drop_zero]
    split
    · rfl
    · rename_i hz
      have hlen : 0 < b.length := charAt_lt_of_ne_zero b 0 hz
      have hcast : ((stringLen (some b) : Int) - 1) = ((b.length - 1 : Nat) : Int) := by
        simp only [stringLen]; omega
      have hlast : notSlash (charAt b (b.length - 1)) = true := by
        rw [charAt_of_lt b _ (by omega)]
        exact hb2 _ (List.getElem_mem _)
      rw [hcast, Int.toNat_ofNat, hlast]
      rw [scanBack_miss b hb2 (b.length - 1) (b.length + 1) (by omega)]
      simp
  rcases h with h | h | ⟨b, h, hb⟩
  · rw [h]; simp [weavePaths, copyString]
  · rw [h]; exact hnosep [] (by simp)
  · rw [h]; exact hnosep b hb

theorem weavePaths_no_directory_witness :
    weavePaths none (xml "d.xml") = xml "d.xml" ∧
      weavePaths (some []) (xml "d.xml") = xml "d.xml" ∧
      weavePaths (some (xml "c.xml")) (xml "../d.xml") = xml "../d.xml" :=
  ⟨weavePaths_no_directory none (xml "d.xml") (Or.inl rfl),
    weavePaths_no_directory (some []) (xml "d.xml") (Or.inr (Or.inl rfl)),
    weavePaths_no_directory (some (xml "c.xml")) (xml "../d.xml")
      (Or.inr (Or.inr ⟨xml "c.xml", rfl, by decide⟩))⟩

/-- C5: at the bare file names `.hidden` and `..data`, which hold no separator and are neither
`.` nor `..`, `weavePaths` drops the leading periods instead of keeping the whole name. -/
theorem weavePaths_bare_name_loses_periods :
    weavePaths (some (xml "/a/b/c.xml")) (xml ".hidden") = xml "/a/b/hidden" ∧
      weavePaths (some (xml "/a/b/c.xml")) (xml "..data") = xml "/a/b/data" := by
  decide

/-- C10: for a C string, `isRelative` is `false` exactly when the path is empty or begins with
the forward slash; so it is `true` for a path that begins with a backslash. -/
theorem isRelative_false_iff (toCheck : List XMLCh) (h0 : (0 : XMLCh) ∉ toCheck) :
    (isRelative toCheck = false ↔ (toCheck = [] ∨ toCheck.head? = some chForwardSlash)) ∧
      (isRelative toCheck = true ↔ ¬ (toCheck = [] ∨ toCheck.head? = some chForwardSlash)) ∧
      (toCheck.head? = some chBackSlash → isRelative toCheck = true) := by
  cases toCheck with
  | nil => simp [isRelative, charAt]
  | cons a t =>
    have ha : a ≠ 0 := by
      intro h; apply h0; simp [h]
    by_cases hs : a = chForwardSlash
    · subst hs
      simp [isRelative, charAt, chForwardSlash, chBackSlash]
    · have hs2 : ¬ a = 47 := hs
      simp [isRelative, charAt, ha, hs, hs2]

theorem isRelative_false_iff_witness :
    isRelative (xml "/a/b") = false ∧ isRelative (xml "a/b") = true ∧
      isRelative (xml "") = false ∧ isRelative (xml "\\a") = true :=
  ⟨(isRelative_false_iff (xml "/a/b") (by decide)).1.mpr (Or.inr (by decide)),
    (isRelative_false_iff (xml "a/b") (by decide)).2.1.mpr (by decide),
    (isRelative_false_iff (xml "") (by decide)).1.mpr (Or.inl (by decide)),
    (isRelative_false_iff (xml "\\a") (by decide)).2.2 (by decide)⟩

/-! ## Machine integers -/

theorem wrapInt_of_range (x : Int) (h1 : INT_MIN ≤ x) (h2 : x ≤ INT_MAX) : wrapInt x = x := by
  unfold INT_MIN at h1
  unfold INT_MAX at h2
  unfold wrapInt
  omega

theorem wrapInt_wrapInt_add (x y : Int) : wrapInt (wrapInt x + y) = wrapInt (x + y) := by
  unfold wrapInt
  omega

/-! ## Emulated atomic operations: the claims -/

/-- C6: when the global mutex is free and both operating-system calls succeed,
`compareAndSwap` returns the value the target held before the call, and afterwards the target
holds `newValue` if that value equalled `toCompare` and is unchanged otherwise. -/
theorem compareAndSwap_prior_value (self : pthread_t) (newValue toCompare : Nat)
    (s : AtomicState Nat) (hfree : s.gAtomicOpMutex = none) :
    (compareAndSwap self 0 0 newValue toCompare s).1 = .returned s.target ∧
      (compareAndSwap self 0 0 newValue toCompare s).2.target =
        if s.target = toCompare then newValue else s.target := by
  by_cases h : s.target = toCompare <;>
    simp [compareAndSwap, pthread_mutex_lock, pthread_mutex_unlock, AtomicState.access, hfree, h]

theorem compareAndSwap_prior_value_witness :
    ((compareAndSwap 1 0 0 7 5 ⟨5, none, [], []⟩).1 = .returned 5 ∧
      (compareAndSwap 1 0 0 7 5 ⟨5, none, [], []⟩).2.target = 7) ∧
    ((compareAndSwap 1 0 0 7 5 ⟨6, none, [], []⟩).1 = .returned 6 ∧
      (compareAndSwap 1 0 0 7 5 ⟨6, none, [], []⟩).2.target = 6) :=
  ⟨compareAndSwap_prior_value 1 7 5 ⟨5, none, [], []⟩ rfl,
    compareAndSwap_prior_value 1 7 5 ⟨6, none, [], []⟩ rfl⟩

/-! ## `RecursiveMutex`: the claims -/

/-- C7, as stated, fails at the largest recursion count: the owner's `lock()` on a mutex with
recursion count `INT_MAX` leaves the count at `INT_MIN`, not at `INT_MAX + 1`. -/
theorem lock_reentrant_at_int_max :
    (heldBy 1 INT_MAX).tid = 1 ∧ 1 ≤ (heldBy 1 INT_MAX).recursionCount ∧
      ((heldBy 1 INT_MAX).lock 1 0).state.recursionCount = INT_MIN ∧
      ((heldBy 1 INT_MAX).lock 1 0).state.recursionCount ≠
        (heldBy 1 INT_MAX).recursionCount + 1 := by
  decide

/-- C7, amended: for every `RecursiveMutex` whose recorded owner is thread `T` with recursion
count `n`, `1 ≤ n < INT_MAX`, `lock()` called by `T` returns without any call on the
operating-system mutex, leaves the owner and the operating-system mutex unchanged, and sets
the recursion count to `n + 1`. -/
theorem lock_reentrant (T : pthread_t) (rc : Int) (m : RecursiveMutex) (n : Int)
    (hT : m.tid = T) (hn : m.recursionCount = n) (h1 : 1 ≤ n) (hmax : n < INT_MAX) :
    m.lock T rc =
      { outcome := .returned,
        state := { mutex := m.mutex, recursionCount := n + 1, tid := m.tid },
        osCalls := [] } := by
  have hw : wrapInt (n + 1) = n + 1 :=
    wrapInt_of_range _ (by unfold INT_MIN; omega) (by unfold INT_MAX at *; omega)
  simp [RecursiveMutex.lock, hT, hn, hw]

theorem lock_reentrant_witness :
    (heldBy 4 2).lock 4 0 =
      { outcome := .returned, state := heldBy 4 3, osCalls := [] } :=
  lock_reentrant 4 0 (heldBy 4 2) 2 rfl rfl (by decide) (by decide)

/-! ### Sequences of calls by one thread -/

theorem depth_nil : depth [] = 0 := rfl

theorem depth_append (p q : List MutexCall) : depth (p ++ q) = depth p + depth q := by
  simp [depth, List.count_append]; ring

theorem depth_lock : depth [MutexCall.lock] = 1 := by decide

theorem depth_unlock : depth [MutexCall.unlock] = -1 := by decide

theorem depth_replicate (a b : Nat) :
    depth (List.replicate a MutexCall.lock ++ List.replicate b MutexCall.unlock) =
      (a : Int) - (b : Int) := by
  simp [depth, List.count_append, List.count_replicate]

theorem runCalls_append (T : pthread_t) (p q : List MutexCall) :
    ∀ m : RecursiveMutex, runCalls T (p ++ q) m = (runCalls T p m).bind (runCalls T q) := by
  induction p with
  | nil => intro m; rfl
  | cons c cs ih =>
    intro m
    simp only [List.cons_append, runCalls]
    split
    · exact ih _
    · rfl

/-- A first `lock()` on a new mutex by a thread takes the operating-system mutex. -/
theorem lock_fresh (T : pthread_t) (hT : T ≠ 0) :
    freshMutex.lock T 0 = { outcome := .returned, state := heldBy T 1, osCalls := [.mutexLock] } := by
  have h : ¬ (0 = T) := fun h => hT h.symm
  simp [RecursiveMutex.lock, freshMutex, heldBy, pthread_mutex_lock, h]

/-- A nested `lock()` by the owner. -/
theorem lock_held (T : pthread_t) (d : Int) :
    (heldBy T d).lock T 0 =
      { outcome := .returned, state := heldBy T (wrapInt (d + 1)), osCalls := [] } := by
  simp [RecursiveMutex.lock, heldBy]

/-- An `unlock()` that leaves the mutex held. -/
theorem unlock_nested (T : pthread_t) (d : Int) (h : 0 < wrapInt (d - 1)) :
    (heldBy T d).unlock 0 =
      { outcome := .returned, state := heldBy T (wrapInt (d - 1)), osCalls := [] } := by
  simp [RecursiveMutex.unlock, heldBy, h]

/-- The `unlock()` that releases the mutex. -/
theorem unlock_last (T : pthread_t) :
    (heldBy T 1).unlock 0 =
      { outcome := .returned, state := freshMutex, osCalls := [.mutexUnlock] } := by
  simp [RecursiveMutex.unlock, heldBy, freshMutex, pthread_mutex_unlock, wrapInt]

/-- The state after a sequence of calls by one thread in which no prefix has more unlocks
than locks and the nesting stays within `int`. -/
theorem runCalls_nested (T : pthread_t) (hT : T ≠ 0) (p : List MutexCall) :
    (∀ q, q <+: p → 0 ≤ depth q ∧ depth q ≤ INT_MAX) →
      runCalls T p freshMutex = some (nested T (depth p)) := by
  induction p using List.reverseRecOn with
  | nil => intro _; rfl
  | append_singleton p c ih =>
    intro hall
    have hp : runCalls T p freshMutex = some (nested T (depth p)) :=
      ih (fun q hq => hall q (hq.trans (List.prefix_append p [c])))
    have hdp := hall p (List.prefix_append p [c])
    have hdpc := hall (p ++ [c]) (List.prefix_refl _)
    rw [runCalls_append, hp]
    simp only [Option.some_bind, runCalls]
    rw [depth_append] at hdpc ⊢
    unfold INT_MAX at hdp hdpc
    cases c with
    | lock =>
      rw [depth_lock] at hdpc ⊢
      by_cases h0 : depth p = 0
      · simp [MutexCall.run, nested, h0, lock_fresh T hT]
      · have hw : wrapInt (depth p + 1) = depth p + 1 :=
          wrapInt_of_range _ (by unfold INT_MIN; omega) (by unfold INT_MAX; omega)
        have hne : ¬ (depth p + 1 = 0) := by omega
        simp [MutexCall.run, nested, h0, lock_held, hw, hne]
    | unlock =>
      rw [depth_unlock] at hdpc ⊢
      have h0 : ¬ (depth p = 0) := by omega
      have hw : wrapInt (depth p - 1) = depth p - 1 :=
        wrapInt_of_range _ (by unfold INT_MIN; omega) (by unfold INT_MAX; omega)
      by_cases h1 : depth p = 1
      · simp [MutexCall.run, nested, h1, unlock_last]
      · have hpos : 0 < wrapInt (depth p - 1) := by rw [hw]; omega
        have hne : ¬ (depth p - 1 = 0) := by omega
        have hsub : depth p + -1 = depth p - 1 := by ring
        simp [MutexCall.run, nested, h0, unlock_nested T _ hpos, hw, hne, hsub]

/-- The state after `n` nested calls of `lock()` on a mutex held by `T`. -/
theorem runCalls_locks (T : pthread_t) :
    ∀ (n : Nat) (c : Int),
      runCalls T (List.replicate n MutexCall.lock) (heldBy T (wrapInt c)) =
        some (heldBy T (wrapInt (c + n))) := by
  intro n
  induction n with
  | zero => intro c; simp [runCalls]
  | succ n ih =>
    intro c
    rw [List.replicate_succ]
    simp only [runCalls, MutexCall.run, lock_held, if_true]
    rw [wrapInt_wrapInt_add, ih (c + 1)]
    congr 3
    push_cast
    ring

/-- The state after `n + 1` calls of `lock()` on a new mutex. -/
theorem runCalls_locks_fresh (T : pthread_t) (hT : T ≠ 0) (n : Nat) :
    runCalls T (List.replicate (n + 1) MutexCall.lock) freshMutex =
      some (heldBy T (wrapInt (n + 1))) := by
  rw [List.replicate_succ]
  simp only [runCalls, MutexCall.run, lock_fresh T hT, if_true]
  have h1 : heldBy T 1 = heldBy T (wrapInt 1) := by
    have : wrapInt 1 = 1 := by decide
    rw [this]
  rw [h1, runCalls_locks T n 1]
  congr 3
  ring

theorem balanced_locksThenUnlocks (n : Nat) : Balanced (locksThenUnlocks n) := by
  constructor
  · intro p hp
    rw [List.prefix_iff_eq_take] at hp
    rw [hp]
    unfold locksThenUnlocks
    rw [List.take_append_eq_append_take, List.take_replicate, List.take_replicate, depth_replicate]
    simp only [List.length_replicate]
    omega
  · unfold locksThenUnlocks
    rw [depth_replicate]
    omega

theorem depth_replicate_lock (n : Nat) :
    depth (List.replicate n MutexCall.lock) = (n : Int) := by
  simp [depth, List.count_replicate]

theorem depth_le_length (q : List MutexCall) : depth q ≤ (q.length : Int) := by
  have h1 : q.count MutexCall.lock ≤ q.length := List.count_le_length _ _
  unfold depth
  omega

/-- In a sequence of at most `INT_MAX` calls no prefix nests deeper than `INT_MAX`. -/
theorem depth_le_of_length (calls : List MutexCall) (h : calls.length ≤ 2147483647) :
    ∀ q, q <+: calls → depth q ≤ INT_MAX := by
  intro q hq
  have h1 := depth_le_length q
  have h2 := hq.length_le
  unfold INT_MAX
  omega

/-- C8, as stated, fails for deep nesting: `2^31` calls of `lock()` followed by `2^31` calls
of `unlock()` are balanced, and after the prefix of the `2^31` calls of `lock()` the recursion
count is `INT_MIN`, not the number of locks less the number of unlocks. -/
theorem balanced_calls_deep_nesting :
    Balanced (locksThenUnlocks 2147483648) ∧
      List.replicate 2147483648 MutexCall.lock <+: locksThenUnlocks 2147483648 ∧
      depth (List.replicate 2147483648 MutexCall.lock) = 2147483648 ∧
      runCalls 1 (List.replicate 2147483648 MutexCall.lock) freshMutex =
        some (heldBy 1 INT_MIN) := by
  refine ⟨balanced_locksThenUnlocks _, List.prefix_append _ _, depth_replicate_lock _, ?_⟩
  have h := runCalls_locks_fresh 1 (by decide) 2147483647
  have hw : wrapInt (((2147483647 : Nat) : Int) + 1) = INT_MIN := by decide
  rw [hw] at h
  exact h

/-- C8, amended: for a balanced sequence of `lock()` and `unlock()` calls by one thread `T` on
a new `RecursiveMutex`, every operating-system call succeeding and the nesting never deeper
than `INT_MAX`, every call returns; after a prefix with more locks than unlocks the
operating-system mutex is held and `T` is the recorded owner with recursion count
locks − unlocks; after a prefix with as many unlocks as locks, and so after the whole
sequence, the mutex is in its initial state (count 0, no owner, operating-system mutex
free). -/
theorem balanced_calls (T : pthread_t) (hT : T ≠ 0) (calls : List MutexCall)
    (hb : Balanced calls) (hdepth : ∀ q, q <+: calls → depth q ≤ INT_MAX) :
    (∀ p, p <+: calls → 0 < depth p → runCalls T p freshMutex = some (heldBy T (depth p))) ∧
      (∀ p, p <+: calls → depth p = 0 → runCalls T p freshMutex = some freshMutex) ∧
      runCalls T calls freshMutex = some freshMutex := by
  have hrun : ∀ p, p <+: calls → runCalls T p freshMutex = some (nested T (depth p)) := by
    intro p hp
    apply runCalls_nested T hT p
    intro q hq
    exact ⟨hb.1 q (hq.trans hp), hdepth q (hq.trans hp)⟩
  refine ⟨?_, ?_, ?_⟩
  · intro p hp hpos
    have hne : ¬ (depth p = 0) := by omega
    rw [hrun p hp]
    simp [nested, hne]
  · intro p hp h0
    rw [hrun p hp]
    simp [nested, h0]
  · rw [hrun calls (List.prefix_refl _)]
    simp [nested, hb.2]

theorem balanced_calls_witness :
    runCalls 1 [.lock, .lock] freshMutex = some (heldBy 1 2) ∧
      runCalls 1 [.lock, .lock, .unlock] freshMutex = some (heldBy 1 1) ∧
      runCalls 1 [.lock, .lock, .unlock, .unlock] freshMutex = some freshMutex :=
  have h := balanced_calls 1 (by decide) (locksThenUnlocks 2) (balanced_locksThenUnlocks 2)
    (depth_le_of_length _ (by decide))
  ⟨h.1 [.lock, .lock] ⟨[.unlock, .unlock], rfl⟩ (by decide),
    h.1 [.lock, .lock, .unlock] ⟨[.unlock], rfl⟩ (by decide),
    h.2.2⟩

/-! ### The data invariant -/

theorem callsInTurn_append (p q : List MutexStep) :
    ∀ m : RecursiveMutex, callsInTurn (p ++ q) m = (callsInTurn p m).bind (callsInTurn q) := by
  induction p with
  | nil => intro m; rfl
  | cons st rest ih =>
    intro m
    simp only [List.cons_append, callsInTurn]
    split
    · rfl
    · exact ih _

/-- One call keeps the invariant when its `pthread_mutex_unlock` does not fail and the
recursion count is strictly inside the range of `int`. -/
theorem step_invariant (st : MutexStep) (m : RecursiveMutex) (hself : st.self ≠ 0)
    (hunlock : st.call = .unlock → st.rc = 0)
    (hlo : INT_MIN < m.recursionCount) (hhi : m.recursionCount < INT_MAX)
    (hinv : CountOwnerInvariant m) :
    CountOwnerInvariant (st.call.run st.self st.rc m).state := by
  obtain ⟨self, call, rc⟩ := st
  obtain ⟨mutex, count, tid⟩ := m
  unfold CountOwnerInvariant at hinv ⊢
  simp only at hself hunlock hlo hhi hinv ⊢
  unfold INT_MIN at hlo
  unfold INT_MAX at hhi
  cases call with
  | lock =>
    simp only [MutexCall.run, RecursiveMutex.lock]
    by_cases ht : tid = self
    · have hw : wrapInt (count + 1) = count + 1 :=
        wrapInt_of_range _ (by unfold INT_MIN; omega) (by unfold INT_MAX; omega)
      have hpos : 0 < count := hinv.mpr (by rw [ht]; exact hself)
      simp only [ht, if_true, hw]
      constructor
      · intro _; exact hself
      · intro _; omega
    · simp only [ht, if_false]
      by_cases hrc : rc = 0
      · cases mutex with
        | none =>
          simp only [pthread_mutex_lock, hrc, ne_eq, not_true_eq_false, if_false]
          constructor
          · intro _; exact hself
          · intro _; omega
        | some holder =>
          simpa [pthread_mutex_lock, hrc] using hinv
      · simpa [pthread_mutex_lock, hrc] using hinv
  | unlock =>
    have hrc : rc = 0 := hunlock rfl
    have hw : wrapInt (count - 1) = count - 1 :=
      wrapInt_of_range _ (by unfold INT_MIN; omega) (by unfold INT_MAX; omega)
    simp only [MutexCall.run, RecursiveMutex.unlock]
    simp only [hw, hrc, pthread_mutex_unlock]
    by_cases hc : count - 1 > 0
    · simp only [hc, if_true]
      exact ⟨fun _ => hinv.mp (by omega), fun _ => trivial⟩
    · simp only [hc, if_false]
      simp
      omega

/-- A call of `lock()` whose statements run with no step of another thread in between leaves
the object as `RecursiveMutex.lock` does, on the re-entrant branch and on the branch that
acquires the free operating-system mutex. -/
theorem lock_alone (s : Threads) (t : pthread_t) (hidle : s.pc t = .idle) :
    (s.object.tid = t →
      (s.run [(t, .callLock), (t, .step)]).map (fun s1 => (s1.object, s1.pc t)) =
        some ((s.object.lock t 0).state, .idle)) ∧
    (s.object.tid ≠ t → s.object.mutex = none →
      (s.run [(t, .callLock), (t, .step), (t, .step), (t, .step), (t, .step)]).map
          (fun s1 => (s1.object, s1.pc t)) =
        some ((s.object.lock t 0).state, .idle)) := by
  constructor
  · intro htid
    simp [Threads.run, Threads.move, Threads.goto, Threads.addHolds, RecursiveMutex.lock,
      hidle, htid]
  · intro htid hfree
    simp [Threads.run, Threads.move, Threads.goto, Threads.addHolds, RecursiveMutex.lock,
      pthread_mutex_lock, hidle, htid, hfree]

/-- A call of `unlock()` whose statements run with no step of another thread in between
leaves the object as `RecursiveMutex.unlock` does, on the nested branch and on the branch that
releases the operating-system mutex. -/
theorem unlock_alone (s : Threads) (t : pthread_t) (hidle : s.pc t = .idle) :
    (wrapInt (s.object.recursionCount - 1) > 0 →
      (s.run [(t, .callUnlock), (t, .step)]).map (fun s1 => (s1.object, s1.pc t)) =
        some ((s.object.unlock 0).state, .idle)) ∧
    (¬ wrapInt (s.object.recursionCount - 1) > 0 →
      (s.run [(t, .callUnlock), (t, .step), (t, .step), (t, .step)]).map
          (fun s1 => (s1.object, s1.pc t)) =
        some ((s.object.unlock 0).state, .idle)) := by
  constructor
  · intro hpos
    simp [Threads.run, Threads.move, Threads.goto, Threads.addHolds, RecursiveMutex.unlock,
      hidle, hpos]
  · intro hpos
    simp [Threads.run, Threads.move, Threads.goto, Threads.addHolds, RecursiveMutex.unlock,
      pthread_mutex_unlock, hidle, hpos]

/-- C9, as stated, fails, in three ways. After `lock()` by thread 1 and an `unlock()` whose
`pthread_mutex_unlock` reports failure (the call throws `Mutex_CouldNotUnlock`), the recursion
count is `0` while thread 1 is still the recorded owner. With every operating-system call
succeeding, when thread 2 completes `lock()` between the `pthread_mutex_unlock` of thread 1
and its `tid = 0`, both threads are outside the methods with the recursion count `1` and no
owner recorded. And after `2^31` calls of `lock()` by thread 1 the recursion count is
`INT_MIN` while thread 1 is the recorded owner. -/
theorem count_owner_invariant_fails :
    (((heldBy 1 1).unlock 1).outcome = .threw .Mutex_CouldNotUnlock ∧
      callsInTurn [⟨1, .lock, 0⟩, ⟨1, .unlock, 1⟩] freshMutex = some (heldBy 1 0) ∧
      ¬ CountOwnerInvariant (heldBy 1 0)) ∧
    ((Threads.start.run (lateClearSchedule.take 14)).map
        (fun s => (s.object, s.pc 1, s.pc 2)) =
        some ({ mutex := some 2, recursionCount := 1, tid := 0 }, .idle, .idle) ∧
      ¬ CountOwnerInvariant { mutex := some 2, recursionCount := 1, tid := 0 }) ∧
    (runCalls 1 (List.replicate 2147483648 MutexCall.lock) freshMutex =
        some (heldBy 1 INT_MIN) ∧
      ¬ CountOwnerInvariant (heldBy 1 INT_MIN)) := by
  refine ⟨⟨by decide, by decide, ?_⟩, ⟨by decide, ?_⟩, ⟨?_, ?_⟩⟩
  · unfold CountOwnerInvariant heldBy
    decide
  · unfold CountOwnerInvariant
    decide
  · have h := runCalls_locks_fresh 1 (by decide) 2147483647
    have hw : wrapInt (((2147483647 : Nat) : Int) + 1) = INT_MIN := by decide
    rw [hw] at h
    exact h
  · unfold CountOwnerInvariant heldBy
    decide

/-- C9, amended: in every state reached from a newly constructed `RecursiveMutex` through
`lock()` and `unlock()` calls by any threads made in turn, each call ending before the next
one begins, calls of `lock()` that throw included, provided no `pthread_mutex_unlock` reports
failure and every call starts with the recursion count strictly inside the range of `int`,
the recursion count is greater than zero if and only if an owner is recorded. -/
theorem count_owner_invariant (steps : List MutexStep) (m : RecursiveMutex)
    (hrun : callsInTurn steps freshMutex = some m)
    (hself : ∀ st ∈ steps, st.self ≠ 0)
    (hunlock : ∀ st ∈ steps, st.call = .unlock → st.rc = 0)
    (hrange : ∀ k, k < steps.length → ∀ mk ∈ callsInTurn (steps.take k) freshMutex,
      INT_MIN < mk.recursionCount ∧ mk.recursionCount < INT_MAX) :
    CountOwnerInvariant m := by
  induction steps using List.reverseRecOn generalizing m with
  | nil =>
    simp only [callsInTurn, Option.some.injEq] at hrun
    rw [← hrun]
    unfold CountOwnerInvariant freshMutex
    simp
  | append_singleton p st ih =>
    rw [callsInTurn_append] at hrun
    obtain ⟨mp, hmp, hlast⟩ := Option.bind_eq_some.mp hrun
    have hp := ih mp hmp (fun x hx => hself x (List.mem_append_left _ hx))
      (fun x hx => hunlock x (List.mem_append_left _ hx))
      (fun k hk mk hmk => by
        have h := hrange k (by simp; omega) mk
        rw [List.take_append_of_le_length (Nat.le_of_lt hk)] at h
        exact h hmk)
    have hr := hrange p.length (by simp) mp (by
      rw [List.take_left' rfl]
      exact hmp)
    simp only [callsInTurn] at hlast
    split at hlast
    · exact absurd hlast (by simp)
    · simp only [Option.some.injEq] at hlast
      rw [← hlast]
      exact step_invariant st mp (hself st (by simp)) (hunlock st (by simp)) hr.1 hr.2 hp

theorem count_owner_invariant_witness :
    callsInTurn
        [⟨1, .lock, 0⟩, ⟨1, .lock, 0⟩, ⟨1, .unlock, 0⟩, ⟨1, .unlock, 0⟩, ⟨2, .lock, 5⟩,
          ⟨2, .lock, 0⟩] freshMutex = some (heldBy 2 1) ∧
      CountOwnerInvariant (heldBy 2 1) :=
  ⟨by decide,
    count_owner_invariant
      [⟨1, .lock, 0⟩, ⟨1, .lock, 0⟩, ⟨1, .unlock, 0⟩, ⟨1, .unlock, 0⟩, ⟨2, .lock, 5⟩,
        ⟨2, .lock, 0⟩] (heldBy 2 1) (by decide) (by decide) (by decide) (by decide)⟩

/-! ## Emulated atomic operations: further claims -/

/-- C11: for an `int` holding `v`, with the global mutex free and both operating-system calls
succeeding: when `v + 1` is representable `atomicIncrement` stores `v + 1` and returns `v + 1`;
when `v - 1` is representable `atomicDecrement` stores `v - 1` and returns `v - 1`; and
`atomicDecrement` applied after `atomicIncrement` returns and restores `v`. -/
theorem atomicIncrement_atomicDecrement (self : pthread_t) (v : Int) (s : AtomicState Int)
    (hv : s.target = v) (hlo : INT_MIN ≤ v) (hhi : v ≤ INT_MAX)
    (hfree : s.gAtomicOpMutex = none) :
    (v + 1 ≤ INT_MAX →
      (atomicIncrement self 0 0 s).1 = .returned (v + 1) ∧
        (atomicIncrement self 0 0 s).2.target = v + 1) ∧
    (INT_MIN ≤ v - 1 →
      (atomicDecrement self 0 0 s).1 = .returned (v - 1) ∧
        (atomicDecrement self 0 0 s).2.target = v - 1) ∧
    (v + 1 ≤ INT_MAX →
      (atomicDecrement self 0 0 (atomicIncrement self 0 0 s).2).1 = .returned v ∧
        (atomicDecrement self 0 0 (atomicIncrement self 0 0 s).2).2.target = v) := by
  refine ⟨?_, ?_, ?_⟩
  · intro h
    have hw : wrapInt (v + 1) = v + 1 := wrapInt_of_range _ (by unfold INT_MIN at *; omega) h
    simp [atomicIncrement, pthread_mutex_lock, pthread_mutex_unlock, AtomicState.access,
      hfree, hv, hw]
  · intro h
    have hw : wrapInt (v - 1) = v - 1 := wrapInt_of_range _ h (by unfold INT_MAX at *; omega)
    simp [atomicDecrement, pthread_mutex_lock, pthread_mutex_unlock, AtomicState.access,
      hfree, hv, hw]
  · intro h
    have hw : wrapInt (v + 1) = v + 1 := wrapInt_of_range _ (by unfold INT_MIN at *; omega) h
    have hw2 : wrapInt v = v := wrapInt_of_range _ hlo hhi
    simp [atomicIncrement, atomicDecrement, pthread_mutex_lock, pthread_mutex_unlock,
      AtomicState.access, hfree, hv, hw, hw2]

theorem atomicIncrement_atomicDecrement_witness :
    ((atomicIncrement 1 0 0 ⟨41, none, [], []⟩).1 = .returned 42 ∧
      (atomicIncrement 1 0 0 ⟨41, none, [], []⟩).2.target = 42) ∧
    ((atomicDecrement 1 0 0 ⟨41, none, [], []⟩).1 = .returned 40 ∧
      (atomicDecrement 1 0 0 ⟨41, none, [], []⟩).2.target = 40) ∧
    ((atomicDecrement 1 0 0 (atomicIncrement 1 0 0 ⟨41, none, [], []⟩).2).1 = .returned 41 ∧
      (atomicDecrement 1 0 0 (atomicIncrement 1 0 0 ⟨41, none, [], []⟩).2).2.target = 41) :=
  have h := atomicIncrement_atomicDecrement 1 41 ⟨41, none, [], []⟩ rfl (by decide)
    (by decide) rfl
  ⟨h.1 (by decide), h.2.1 (by decide), h.2.2 (by decide)⟩

/-- C14: in `compareAndSwap`, `atomicIncrement` and `atomicDecrement`, a failing
`pthread_mutex_lock` ends the operation in `panic(Panic_SynchronizationErr)` on the state as it
was, the target unmodified; with the mutex acquired, a failing `pthread_mutex_unlock` ends the
operation with no value returned, the line of `Panic_SynchronizationErr` on standard error and
the exit status `-1`; and `panic(Panic_SynchronizationErr)` returns no value: it writes the
line "Cannot synchronize system or mutex" to standard error and exits with the non-zero
status `-1`. -/
theorem atomic_operations_panic (self : pthread_t) (lockRc unlockRc : Int) :
    (lockRc ≠ 0 →
      (∀ (newValue toCompare : Nat) (s : AtomicState Nat),
        compareAndSwap self lockRc unlockRc newValue toCompare s =
          panic .Panic_SynchronizationErr s) ∧
      (∀ s : AtomicState Int,
        atomicIncrement self lockRc unlockRc s = panic .Panic_SynchronizationErr s) ∧
      (∀ s : AtomicState Int,
        atomicDecrement self lockRc unlockRc s = panic .Panic_SynchronizationErr s)) ∧
    (unlockRc ≠ 0 →
      (∀ (newValue toCompare : Nat) (s : AtomicState Nat), s.gAtomicOpMutex = none →
        (compareAndSwap self 0 unlockRc newValue toCompare s).1 = .exited (-1) ∧
          (compareAndSwap self 0 unlockRc newValue toCompare s).2.stderr =
            s.stderr ++ [synchronizationErrLine]) ∧
      (∀ s : AtomicState Int, s.gAtomicOpMutex = none →
        (atomicIncrement self 0 unlockRc s).1 = .exited (-1) ∧
          (atomicIncrement self 0 unlockRc s).2.stderr =
            s.stderr ++ [synchronizationErrLine]) ∧
      (∀ s : AtomicState Int, s.gAtomicOpMutex = none →
        (atomicDecrement self 0 unlockRc s).1 = .exited (-1) ∧
          (atomicDecrement self 0 unlockRc s).2.stderr =
            s.stderr ++ [synchronizationErrLine])) ∧
    (∀ (α ρ : Type) (s : AtomicState α),
      (panic .Panic_SynchronizationErr s : Ending ρ × AtomicState α) =
        (.exited (-1), { s with stderr := s.stderr ++ [synchronizationErrLine] }) ∧
      (-1 : Int) ≠ 0 ∧
      (panic .Panic_SynchronizationErr s : Ending ρ × AtomicState α).2.target = s.target) := by
  refine ⟨?_, ?_, ?_⟩
  · intro h
    refine ⟨?_, ?_, ?_⟩
    · intro newValue toCompare s
      simp [compareAndSwap, pthread_mutex_lock, h]
    · intro s
      simp [atomicIncrement, pthread_mutex_lock, h]
    · intro s
      simp [atomicDecrement, pthread_mutex_lock, h]
  · intro h
    refine ⟨?_, ?_, ?_⟩
    · intro newValue toCompare s hfree
      by_cases hc : s.target = toCompare <;>
        simp [compareAndSwap, pthread_mutex_lock, pthread_mutex_unlock, AtomicState.access,
          panic, synchronizationErrLine, hfree, h, hc]
    · intro s hfree
      simp [atomicIncrement, pthread_mutex_lock, pthread_mutex_unlock, AtomicState.access,
        panic, synchronizationErrLine, hfree, h]
    · intro s hfree
      simp [atomicDecrement, pthread_mutex_lock, pthread_mutex_unlock, AtomicState.access,
        panic, synchronizationErrLine, hfree, h]
  · intro α ρ s
    refine ⟨?_, by decide, ?_⟩
    · simp [panic, synchronizationErrLine]
    · simp [panic]

theorem atomic_operations_panic_witness :
    compareAndSwap 1 22 0 7 5 ⟨5, none, [], []⟩ =
        (.exited (-1), ⟨5, none, ["Cannot synchronize system or mutex\n"], []⟩) ∧
      (atomicIncrement 1 0 22 ⟨41, none, [], []⟩).1 = .exited (-1) ∧
      (atomicIncrement 1 0 22 ⟨41, none, [], []⟩).2.stderr =
        ["Cannot synchronize system or mutex\n"] :=
  have h := atomic_operations_panic 1 22 22
  ⟨(h.1 (by decide)).1 7 5 ⟨5, none, [], []⟩, by decide, by decide⟩

/-- C20: started by thread `self` with the global mutex free and both operating-system calls
succeeding, each of `compareAndSwap` (comparison succeeding or failing), `atomicIncrement` and
`atomicDecrement` returns; every access it makes to the target is made while `self` holds the
global mutex (the accesses added to the record all carry `true`); the global mutex is free
again on return; and standard error is unchanged, so nothing but the target has changed. -/
theorem atomic_operations_hold_lock (self : pthread_t) :
    (∀ (newValue toCompare : Nat) (s : AtomicState Nat), s.gAtomicOpMutex = none →
      (compareAndSwap self 0 0 newValue toCompare s).1 = .returned s.target ∧
        (compareAndSwap self 0 0 newValue toCompare s).2.gAtomicOpMutex = none ∧
        (compareAndSwap self 0 0 newValue toCompare s).2.stderr = s.stderr ∧
        (compareAndSwap self 0 0 newValue toCompare s).2.accesses =
          s.accesses ++
            (if s.target = toCompare then
              [(Access.read, true), (Access.read, true), (Access.write, true)]
            else [(Access.read, true), (Access.read, true)])) ∧
    (∀ s : AtomicState Int, s.gAtomicOpMutex = none →
      (atomicIncrement self 0 0 s).1 = .returned (wrapInt (s.target + 1)) ∧
        (atomicIncrement self 0 0 s).2.gAtomicOpMutex = none ∧
        (atomicIncrement self 0 0 s).2.stderr = s.stderr ∧
        (atomicIncrement self 0 0 s).2.accesses =
          s.accesses ++ [(Access.read, true), (Access.write, true)]) ∧
    (∀ s : AtomicState Int, s.gAtomicOpMutex = none →
      (atomicDecrement self 0 0 s).1 = .returned (wrapInt (s.target - 1)) ∧
        (atomicDecrement self 0 0 s).2.gAtomicOpMutex = none ∧
        (atomicDecrement self 0 0 s).2.stderr = s.stderr ∧
        (atomicDecrement self 0 0 s).2.accesses =
          s.accesses ++ [(Access.read, true), (Access.write, true)]) := by
  refine ⟨?_, ?_, ?_⟩
  · intro newValue toCompare s hfree
    by_cases hc : s.target = toCompare <;>
      simp [compareAndSwap, pthread_mutex_lock, pthread_mutex_unlock, AtomicState.access,
        hfree, hc]
  · intro s hfree
    simp [atomicIncrement, pthread_mutex_lock, pthread_mutex_unlock, AtomicState.access, hfree]
  · intro s hfree
    simp [atomicDecrement, pthread_mutex_lock, pthread_mutex_unlock, AtomicState.access, hfree]

theorem atomic_operations_hold_lock_witness :
    (compareAndSwap 1 0 0 7 5 ⟨5, none, [], []⟩).2.accesses =
        [(Access.read, true), (Access.read, true), (Access.write, true)] ∧
      (compareAndSwap 1 0 0 7 5 ⟨6, none, [], []⟩).2.accesses =
        [(Access.read, true), (Access.read, true)] ∧
      (atomicIncrement 1 0 0 ⟨41, none, [], []⟩).2.gAtomicOpMutex = none ∧
      (atomicDecrement 1 0 0 ⟨41, none, [], []⟩).2.accesses =
        [(Access.read, true), (Access.write, true)] :=
  have h := atomic_operations_hold_lock 1
  ⟨(h.1 7 5 ⟨5, none, [], []⟩ rfl).2.2.2, (h.1 7 5 ⟨6, none, [], []⟩ rfl).2.2.2,
    (h.2.1 ⟨41, none, [], []⟩ rfl).2.1, (h.2.2 ⟨41, none, [], []⟩ rfl).2.2.2⟩

/-! ## `RecursiveMutex`: further claims -/

/-- C15: `lock()` called by thread `T` throws, with code `Mutex_CouldNotLock` and no other,
exactly when `T` is not the recorded owner and `pthread_mutex_lock` reports failure; when it
throws, the object, so the recursion count and the owner, is as before the call; and when `T`
is not the recorded owner and the free operating-system mutex is acquired, the call returns
with `T` the owner and the recursion count `1`. -/
theorem lock_fails_iff (T : pthread_t) (rc : Int) (m : RecursiveMutex) :
    ((m.lock T rc).outcome = .threw .Mutex_CouldNotLock ↔ (m.tid ≠ T ∧ rc ≠ 0)) ∧
      (∀ code, (m.lock T rc).outcome = .threw code →
        code = .Mutex_CouldNotLock ∧ (m.lock T rc).state = m) ∧
      (m.tid ≠ T → rc = 0 → m.mutex = none →
        m.lock T rc =
          { outcome := .returned, state := { mutex := some T, recursionCount := 1, tid := T },
            osCalls := [.mutexLock] }) := by
  obtain ⟨mutex, count, tid⟩ := m
  by_cases ht : tid = T
  · simp [RecursiveMutex.lock, ht]
  · by_cases hrc : rc = 0
    · cases mutex with
      | none => simp [RecursiveMutex.lock, pthread_mutex_lock, ht, hrc]
      | some holder => simp [RecursiveMutex.lock, pthread_mutex_lock, ht, hrc]
    · simp [RecursiveMutex.lock, pthread_mutex_lock, ht, hrc]

theorem lock_fails_iff_witness :
    (freshMutex.lock 3 11).outcome = .threw .Mutex_CouldNotLock ∧
      (freshMutex.lock 3 11).state = freshMutex ∧
      freshMutex.lock 3 0 =
        { outcome := .returned, state := heldBy 3 1, osCalls := [.mutexLock] } :=
  have h := lock_fails_iff 3 11 freshMutex
  ⟨h.1.mpr ⟨by decide, by decide⟩, (h.2.1 .Mutex_CouldNotLock (by decide)).2,
    (lock_fails_iff 3 0 freshMutex).2.2 (by decide) rfl rfl⟩

/-- C17: `lockMutex`, `unlockMutex` and `closeMutex` called with the null handle return
without an error, without a call on the operating system and without an object touched; in
the build with `APP_NO_THREADS`, `makeMutex` returns the null handle and the three functions
do nothing whatever handle they are given, so both builds take that handle as a no-op. -/
theorem null_handle_is_noop :
    (∀ (self : pthread_t) (rc : Int),
      lockMutex self rc none = { outcome := .returned, object := none, osCalls := [] }) ∧
    (∀ rc : Int, unlockMutex rc none = { outcome := .returned, object := none, osCalls := [] }) ∧
    (∀ rc : Int, closeMutex rc none = { outcome := .returned, object := none, osCalls := [] }) ∧
    (∀ α : Type, (NoThreads.makeMutex : Option α) = none) ∧
    (∀ (α : Type) (h : Option α),
      NoThreads.lockMutex h = { outcome := .returned, object := h, osCalls := [] } ∧
        NoThreads.unlockMutex h = { outcome := .returned, object := h, osCalls := [] } ∧
        NoThreads.closeMutex h = { outcome := .returned, object := h, osCalls := [] }) ∧
    (∀ (self : pthread_t) (rc : Int),
      lockMutex self rc NoThreads.makeMutex =
          { outcome := .returned, object := none, osCalls := [] } ∧
        unlockMutex rc NoThreads.makeMutex =
          { outcome := .returned, object := none, osCalls := [] } ∧
        closeMutex rc NoThreads.makeMutex =
          { outcome := .returned, object := none, osCalls := [] }) :=
  ⟨fun _ _ => rfl, fun _ => rfl, fun _ => rfl, fun _ => rfl, fun _ _ => ⟨rfl, rfl, rfl⟩,
    fun _ _ => ⟨rfl, rfl, rfl⟩⟩

/-! ## Path weaving: bounds on the two pointers -/

theorem scanBack_le (b : List XMLCh) :
    ∀ (fuel : Nat) (basePtr : Int), scanBack b fuel basePtr ≤ basePtr := by
  intro fuel
  induction fuel with
  | zero => intro basePtr; exact le_refl _
  | succ n ih =>
    intro basePtr
    simp only [scanBack]
    split
    · have := ih (basePtr - 1)
      omega
    · exact le_refl _

theorem popLevel_lt (b : List XMLCh) (basePtr : Int) : popLevel b basePtr < basePtr := by
  have := scanBack_le b (b.length + 1) (basePtr - 1)
  unfold popLevel
  omega

/-- The loop over the periods never moves `basePtr` forward and never moves `pathPtr` past the
terminator of the relative path. -/
theorem weaveLoop_bounds (b s : List XMLCh) :
    ∀ (fuel : Nat) (bp : Int) (i : Nat), i ≤ s.length →
      (weaveLoop b s fuel bp i).1 ≤ bp ∧ i ≤ (weaveLoop b s fuel bp i).2 ∧
        (weaveLoop b s fuel bp i).2 ≤ s.length := by
  intro fuel
  induction fuel with
  | zero => intro bp i hi; exact ⟨le_refl _, le_refl _, hi⟩
  | succ n ih =>
    intro bp i hi
    by_cases h0 : charAt s i = chPeriod
    · have hi0 : i < s.length := charAt_lt_of_ne_zero s i (by rw [h0]; decide)
      have hpop := popLevel_lt b bp
      simp only [weaveLoop]
      by_cases h1 : charAt s (i + 1) = chPeriod
      · have hi1 : i + 1 < s.length := charAt_lt_of_ne_zero s (i + 1) (by rw [h1]; decide)
        simp only [h0, h1, bne_self_eq_false, Bool.false_eq_true, if_false, beq_self_eq_true,
          if_true]
        by_cases h2 : (notSlash (charAt s (i + 1 + 1)) && charAt s (i + 1 + 1) != 0) = true
        · simp only [h2, if_true]
          exact ⟨le_refl _, by omega, by omega⟩
        · by_cases h3 : charAt s (i + 1 + 1) = 0
          · simp only [h2, h3]
            simp
            have := ih (popLevel b bp) (i + 1 + 1) (by omega)
            exact ⟨by omega, by omega, this.2.2⟩
          · have hi2 : i + 1 + 1 < s.length := charAt_lt_of_ne_zero s _ h3
            simp only [h2]
            simp [h3]
            have := ih (popLevel b bp) (i + 1 + 1 + 1) (by omega)
            exact ⟨by omega, by omega, this.2.2⟩
      · have h1b : (charAt s (i + 1) == chPeriod) = false := by simpa using h1
        simp only [h0, h1b, bne_self_eq_false, Bool.false_eq_true, if_false]
        by_cases h2 : (notSlash (charAt s (i + 1)) && charAt s (i + 1) != 0) = true
        · simp only [h2, if_true]
          exact ⟨le_refl _, by omega, by omega⟩
        · by_cases h3 : charAt s (i + 1) = 0
          · simp only [h2, h3]
            simp
            have := ih bp (i + 1) (by omega)
            exact ⟨this.1, by omega, this.2.2⟩
          · have hi1 : i + 1 < s.length := charAt_lt_of_ne_zero s _ h3
            simp only [h2]
            simp [h3]
            have := ih bp (i + 1 + 1) (by omega)
            exact ⟨this.1, by omega, this.2.2⟩
    · rw [weaveLoop_stop b s _ bp i h0]
      exact ⟨le_refl _, le_refl _, hi⟩

theorem copyBase_eq_take_toNat (b : List XMLCh) (bp : Int) (h : bp < b.length) :
    copyBase b bp = b.take (bp + 1).toNat := by
  by_cases hneg : bp < 0
  · have hz : (bp + 1).toNat = 0 := by omega
    rw [copyBase_neg b bp hneg, hz]
    rfl
  · obtain ⟨n, rfl⟩ : ∃ n : Nat, bp = (n : Int) := ⟨bp.toNat, by omega⟩
    have hn : ((n : Int) + 1).toNat = n + 1 := by omega
    rw [copyBase_eq_take b n (by omega), hn]

/-- The value of `basePtr` before the loop over the periods is below the length of the base
path. -/
theorem initial_basePtr_lt (b : List XMLCh) :
    (if notSlash (charAt b ((stringLen (some b) : Int) - 1).toNat) = true then
        scanBack b (b.length + 1) ((stringLen (some b) : Int) - 1)
      else (stringLen (some b) : Int) - 1) < (b.length : Int) := by
  have hlen : (stringLen (some b) : Int) = (b.length : Int) := rfl
  split
  · have := scanBack_le b (b.length + 1) ((stringLen (some b) : Int) - 1)
    omega
  · omega

/-- The result of `weavePaths` is a leading part of the base path followed by a trailing part
of the relative path. -/
theorem weavePaths_take_drop (base : Option (List XMLCh)) (rel : List XMLCh) :
    ∃ n k, weavePaths base rel = (base.getD []).take n ++ rel.drop k := by
  cases base with
  | none => exact ⟨0, 0, by simp [weavePaths, copyString]⟩
  | some b =>
    by_cases hz : charAt b 0 = 0
    · exact ⟨0, 0, by simp [weavePaths, copyString, hz]⟩
    · have hlt := initial_basePtr_lt b
      simp only [weavePaths, copyString, Option.getD_some, hz, if_false]
      revert hlt
      generalize (if notSlash (charAt b ((stringLen (some b) : Int) - 1).toNat) = true then
        scanBack b (b.length + 1) ((stringLen (some b) : Int) - 1)
        else (stringLen (some b) : Int) - 1) = bp0
      intro hlt
      by_cases hneg : bp0 < 0
      · exact ⟨0, 0, by simp [hneg]⟩
      · have hb := weaveLoop_bounds b rel (rel.length + 1) bp0 0 (Nat.zero_le _)
        refine ⟨((weaveLoop b rel (rel.length + 1) bp0 0).1 + 1).toNat,
          (weaveLoop b rel (rel.length + 1) bp0 0).2, ?_⟩
        simp only [hneg, if_false]
        rw [copyBase_eq_take_toNat b _ (lt_of_le_of_lt hb.1 hlt)]

/-- C19: for every base path (null counted as empty) and every relative path, the string
`weavePaths` returns is a prefix of the base path followed by a suffix of the relative path;
its length is at most the sum of the two lengths, and with its terminator it fits in the
`stringLen(basePath) + stringLen(relativePath) + 2` characters allocated. -/
theorem weavePaths_fits_buffer (base : Option (List XMLCh)) (rel : List XMLCh) :
    (∃ pre suf, pre <+: base.getD [] ∧ suf <:+ rel ∧ weavePaths base rel = pre ++ suf) ∧
      (weavePaths base rel).length ≤ stringLen base + stringLen (some rel) ∧
      (weavePaths base rel).length + 1 ≤ stringLen base + stringLen (some rel) + 2 := by
  obtain ⟨n, k, h⟩ := weavePaths_take_drop base rel
  have hlen : (weavePaths base rel).length ≤ stringLen base + stringLen (some rel) := by
    rw [h]
    have h1 : ((base.getD []).take n).length ≤ stringLen base := by
      cases base with
      | none => simp [stringLen]
      | some b => simp [stringLen]
    have h2 : (rel.drop k).length ≤ stringLen (some rel) := by
      simp [stringLen]
    rw [List.length_append]
    omega
  refine ⟨⟨_, _, List.take_prefix n _, List.drop_suffix k rel, h⟩, hlen, ?_⟩
  omega

/-! ## Path weaving: the two separators -/

theorem normSlash_zero_iff (c : XMLCh) : normSlash c = 0 ↔ c = 0 := by
  unfold normSlash
  by_cases h : c = chBackSlash
  · rw [h]; decide
  · simp [h]

theorem normSlash_period_iff (c : XMLCh) : normSlash c = chPeriod ↔ c = chPeriod := by
  unfold normSlash
  by_cases h : c = chBackSlash
  · rw [h]; decide
  · simp [h]

theorem notSlash_normSlash (c : XMLCh) : notSlash (normSlash c) = notSlash c := by
  unfold normSlash
  by_cases h : c = chBackSlash
  · rw [h]; decide
  · simp [h]

theorem charAt_norm (s : List XMLCh) (i : Nat) : charAt (norm s) i = normSlash (charAt s i) := by
  by_cases h : i < s.length
  · rw [charAt_of_lt s i h, charAt_of_lt (norm s) i (by simpa [norm] using h)]
    simp [norm]
  · have h2 : s.length ≤ i := Nat.le_of_not_lt h
    rw [charAt_of_le s i h2, charAt_of_le (norm s) i (by simpa [norm] using h2)]
    decide

theorem norm_length (s : List XMLCh) : (norm s).length = s.length := by
  simp [norm]

theorem scanBack_norm (b : List XMLCh) :
    ∀ (fuel : Nat) (basePtr : Int), scanBack (norm b) fuel basePtr = scanBack b fuel basePtr := by
  intro fuel
  induction fuel with
  | zero => intro basePtr; rfl
  | succ n ih =>
    intro basePtr
    simp only [scanBack, charAt_norm, notSlash_normSlash, ih]

theorem popLevel_norm (b : List XMLCh) (basePtr : Int) :
    popLevel (norm b) basePtr = popLevel b basePtr := by
  simp only [popLevel, norm_length, scanBack_norm]

theorem bne_eq_of_iff (a b c d : XMLCh) (h : a = b ↔ c = d) : (a != b) = (c != d) := by
  by_cases hc : c = d
  · have ha := h.mpr hc
    rw [ha, hc]
    simp
  · have ha : ¬ a = b := fun x => hc (h.mp x)
    have e1 : (a != b) = true := bne_iff_ne.mpr ha
    have e2 : (c != d) = true := bne_iff_ne.mpr hc
    rw [e1, e2]

theorem beq_eq_of_iff (a b c d : XMLCh) (h : a = b ↔ c = d) : (a == b) = (c == d) := by
  by_cases hc : c = d
  · have ha := h.mpr hc
    rw [ha, hc]
    simp
  · have ha : ¬ a = b := fun x => hc (h.mp x)
    have e1 : (a == b) = false := beq_eq_false_iff_ne.mpr ha
    have e2 : (c == d) = false := beq_eq_false_iff_ne.mpr hc
    rw [e1, e2]

theorem weaveLoop_norm (b s : List XMLCh) :
    ∀ (fuel : Nat) (bp : Int) (i : Nat),
      weaveLoop (norm b) (norm s) fuel bp i = weaveLoop b s fuel bp i := by
  have hp : ∀ c : XMLCh, (normSlash c != chPeriod) = (c != chPeriod) :=
    fun c => bne_eq_of_iff _ _ _ _ (normSlash_period_iff c)
  have hq : ∀ c : XMLCh, (normSlash c == chPeriod) = (c == chPeriod) :=
    fun c => beq_eq_of_iff _ _ _ _ (normSlash_period_iff c)
  have hz : ∀ c : XMLCh, (normSlash c != 0) = (c != 0) :=
    fun c => bne_eq_of_iff _ _ _ _ (normSlash_zero_iff c)
  intro fuel
  induction fuel with
  | zero => intro bp i; rfl
  | succ n ih =>
    intro bp i
    simp only [weaveLoop, charAt_norm, notSlash_normSlash, hp, hq, hz, popLevel_norm, ih]

theorem copyBase_norm (b : List XMLCh) (bp : Int) :
    copyBase (norm b) bp = norm (copyBase b bp) := by
  simp only [copyBase, norm, List.map_map]
  apply List.map_congr_left
  intro i _
  exact charAt_norm b i

/-- C12: writing `norm` for the replacement of every backslash by the forward slash,
`norm (weavePaths base rel) = weavePaths (norm base) (norm rel)` for every base path, null
included, and every relative path; and the result of `weavePaths` is made of characters of its
inputs as they are: a prefix of the base path followed by a suffix of the relative path. -/
theorem weavePaths_norm (base : Option (List XMLCh)) (rel : List XMLCh) :
    norm (weavePaths base rel) = weavePaths (base.map norm) (norm rel) ∧
      ∃ pre suf, pre <+: base.getD [] ∧ suf <:+ rel ∧ weavePaths base rel = pre ++ suf := by
  refine ⟨?_, ?_⟩
  · cases base with
    | none => simp [weavePaths, copyString]
    | some b =>
      have hz : (charAt (norm b) 0 = 0) ↔ (charAt b 0 = 0) := by
        rw [charAt_norm]; exact normSlash_zero_iff _
      have hlen : stringLen (some (norm b)) = stringLen (some b) := by
        simp [stringLen, norm_length]
      simp only [weavePaths, Option.map_some', copyString, hlen, charAt_norm,
        normSlash_zero_iff, notSlash_normSlash, scanBack_norm, norm_length, weaveLoop_norm,
        copyBase_norm]
      by_cases h0 : charAt b 0 = 0
      · simp only [h0, if_true]
        simp [norm]
      · simp only [h0, if_false]
        generalize (if notSlash (charAt b ((stringLen (some b) : Int) - 1).toNat) = true then
          scanBack b (b.length + 1) ((stringLen (some b) : Int) - 1)
          else (stringLen (some b) : Int) - 1) = bp0
        by_cases hneg : bp0 < 0
        · simp [hneg, norm]
        · simp [hneg, norm, List.map_drop]
  · obtain ⟨n, k, h⟩ := weavePaths_take_drop base rel
    exact ⟨_, _, List.take_prefix n _, List.drop_suffix k rel, h⟩

/-! ## Path weaving: relative paths made of dot segments only -/

theorem weaveLoop_single_dot (b : List XMLCh) (fuel : Nat) (bp : Int) :
    weaveLoop b [chPeriod] (fuel + 1) bp 0 = (bp, 1) := by
  have e0 : charAt [chPeriod] 0 = chPeriod := rfl
  have e1 : charAt [chPeriod] 1 = 0 := rfl
  have hstep : weaveLoop b [chPeriod] (fuel + 1) bp 0 = weaveLoop b [chPeriod] fuel bp 1 := by
    have hz : ((0 : XMLCh) == chPeriod) = false := by decide
    simp [weaveLoop, e0, e1, notSlash_zero, hz]
  rw [hstep]
  exact weaveLoop_stop b _ fuel bp 1 (by rw [e1]; decide)

theorem weaveLoop_double_dot (b : List XMLCh) (fuel : Nat) (bp : Int) :
    weaveLoop b [chPeriod, chPeriod] (fuel + 1) bp 0 = (popLevel b bp, 2) := by
  have e0 : charAt [chPeriod, chPeriod] 0 = chPeriod := rfl
  have e1 : charAt [chPeriod, chPeriod] 1 = chPeriod := rfl
  have e2 : charAt [chPeriod, chPeriod] 2 = 0 := rfl
  have hstep : weaveLoop b [chPeriod, chPeriod] (fuel + 1) bp 0 =
      weaveLoop b [chPeriod, chPeriod] fuel (popLevel b bp) 2 := by
    simp [weaveLoop, e0, e1, e2, notSlash_zero]
  rw [hstep]
  exact weaveLoop_stop b _ fuel _ 2 (by rw [e2]; decide)

/-- A base path `p ++ c :: mid` with exactly `k` separators in `mid` splits at its last
separator, and `k` pops from that separator arrive at `c`. -/
theorem exists_last_slash_pop (p : List XMLCh) (c : XMLCh) (mid : List XMLCh) (k : Nat)
    (hc : notSlash c = false) (hmid : mid.countP isSlash = k) :
    ∃ P e m2, p ++ c :: mid = P ++ e :: m2 ∧ notSlash e = false ∧
      (∀ x ∈ m2, notSlash x = true) ∧
      (popLevel (p ++ c :: mid))^[k] (P.length : Int) = (p.length : Int) := by
  obtain ⟨m1, m2, hsplit, h2, h1⟩ := split_last_slash mid
  have hm2 : m2.countP isSlash = 0 := by
    rw [List.countP_eq_zero]
    intro x hx
    simp [isSlash_eq_not, h2 x hx]
  have hm1 : m1.countP isSlash = k := by
    rw [hsplit, List.countP_append, hm2] at hmid
    simpa using hmid
  have hiter := popLevel_iterate p c hc k m1 m2 hm1 h1
  rw [← hsplit] at hiter
  rcases h1 with h1 | ⟨m0, e, h1, he⟩
  · refine ⟨p, c, mid, rfl, hc, ?_, ?_⟩
    · rw [hsplit, h1]; simpa using h2
    · rw [h1] at hiter
      simpa using hiter
  · refine ⟨p ++ c :: m0, e, m2, by rw [hsplit, h1]; simp, he, h2, ?_⟩
    have hidx : ((p.length + m1.length : Nat) : Int) = ((p ++ c :: m0).length : Int) := by
      rw [h1]; simp
    rw [hidx] at hiter
    exact hiter

/-- C13: for a base path `p ++ c :: q` whose last separator is `c`, the relative paths `.`,
`./` and the empty one all give the base path up to and including `c`, nothing appended; and
when the base path is also `p2 ++ c2 :: mid` with exactly one separator in `mid` (so `c2` is
its second-to-last separator), the relative paths `..` and `../` both give the base path up to
and including `c2`. -/
theorem weavePaths_only_dots (p : List XMLCh) (c : XMLCh) (q : List XMLCh)
    (hc : c = chForwardSlash ∨ c = chBackSlash)
    (hq : ∀ x ∈ q, x ≠ chForwardSlash ∧ x ≠ chBackSlash)
    (h0 : (0 : XMLCh) ∉ p ++ c :: q) :
    weavePaths (some (p ++ c :: q)) (xml ".") = p ++ [c] ∧
      weavePaths (some (p ++ c :: q)) (xml "./") = p ++ [c] ∧
      weavePaths (some (p ++ c :: q)) (xml "") = p ++ [c] ∧
      (∀ (p2 : List XMLCh) (c2 : XMLCh) (mid : List XMLCh), p ++ c :: q = p2 ++ c2 :: mid →
        (c2 = chForwardSlash ∨ c2 = chBackSlash) → mid.countP isSlash = 1 →
          weavePaths (some (p ++ c :: q)) (xml "..") = p2 ++ [c2] ∧
            weavePaths (some (p ++ c :: q)) (xml "../") = p2 ++ [c2]) := by
  have hcs := (notSlash_eq_false_iff c).mpr hc
  have hqs : ∀ x ∈ q, notSlash x = true := fun x hx => (notSlash_eq_true_iff x).mpr (hq x hx)
  have hx1 : xml "." = [chPeriod] := by decide
  have hx2 : xml "./" = chPeriod :: chForwardSlash :: [] := by decide
  have hx3 : xml "" = [] := by decide
  have hx4 : xml ".." = [chPeriod, chPeriod] := by decide
  have hx5 : xml "../" = chPeriod :: chPeriod :: chForwardSlash :: [] := by decide
  have hnil : ∀ (b : List XMLCh) (f : Nat) (bp : Int), weaveLoop b [] f bp 0 = (bp, 0) :=
    fun b f bp => weaveLoop_stop b [] f bp 0 (by decide)
  refine ⟨?_, ?_, ?_, ?_⟩
  · rw [weavePaths_dir p c q _ hcs hqs h0, hx1, weaveLoop_single_dot]
    simp [copyBase_append]
  · rw [weavePaths_dir p c q _ hcs hqs h0, hx2, weaveLoop_dot _ chForwardSlash [] (by decide),
      hnil]
    simp [copyBase_append]
  · rw [weavePaths_dir p c q _ hcs hqs h0, hx3, hnil]
    simp [copyBase_append]
  · intro p2 c2 mid hbase hc2 hmid
    obtain ⟨P, e, m2, hsplit, he, hm2, hpop⟩ :=
      exists_last_slash_pop p2 c2 mid 1 ((notSlash_eq_false_iff c2).mpr hc2) hmid
    rw [hbase] at h0 ⊢
    have hpop1 : popLevel (p2 ++ c2 :: mid) (P.length : Int) = (p2.length : Int) := by
      simpa using hpop
    rw [hsplit] at h0
    constructor
    · rw [hsplit, weavePaths_dir P e m2 _ he hm2 h0, hx4, weaveLoop_double_dot, ← hsplit,
        hpop1]
      simp [copyBase_append]
    · rw [hsplit, weavePaths_dir P e m2 _ he hm2 h0, hx5,
        weaveLoop_dotdot _ chForwardSlash [] (by decide), hnil, ← hsplit, hpop1]
      simp [copyBase_append]

theorem weavePaths_only_dots_witness :
    weavePaths (some (xml "/a/b/c.xml")) (xml ".") = xml "/a/b/" ∧
      weavePaths (some (xml "/a/b/c.xml")) (xml "./") = xml "/a/b/" ∧
      weavePaths (some (xml "/a/b/c.xml")) (xml "") = xml "/a/b/" ∧
      weavePaths (some (xml "/a/b/c.xml")) (xml "..") = xml "/a/" ∧
      weavePaths (some (xml "/a/b/c.xml")) (xml "../") = xml "/a/" :=
  have h := weavePaths_only_dots (xml "/a/b") chForwardSlash (xml "c.xml") (by decide)
    (by decide) (by decide)
  have h2 := h.2.2.2 (xml "/a") chForwardSlash (xml "b/c.xml") (by decide) (by decide)
    (by decide)
  ⟨h.1, h.2.1, h.2.2.1, h2.1, h2.2⟩

/-! ## Path weaving: every read is inside its string -/

theorem readAt_nat (s : List XMLCh) (i : Nat) (h : i ≤ s.length) :
    readAt s (i : Int) = some (charAt s i) := by
  have h2 : (0 : Int) ≤ (i : Int) ∧ (i : Int) ≤ (s.length : Int) := ⟨by omega, by omega⟩
  simp [readAt, h2]

theorem readAt_int (s : List XMLCh) (i : Int) (h0 : 0 ≤ i) (h : i ≤ (s.length : Int)) :
    readAt s i = some (charAt s i.toNat) := by
  simp [readAt, h0, h]

theorem scanBackChecked_eq (b : List XMLCh) :
    ∀ (fuel : Nat) (basePtr : Int), basePtr ≤ (b.length : Int) →
      scanBackChecked b fuel basePtr = some (scanBack b fuel basePtr) := by
  intro fuel
  induction fuel with
  | zero => intro basePtr _; rfl
  | succ n ih =>
    intro basePtr h
    simp only [scanBackChecked, scanBack]
    by_cases h0 : basePtr ≥ 0
    · rw [readAt_int b basePtr h0 h]
      by_cases hs : notSlash (charAt b basePtr.toNat) = true
      · simp only [h0, hs, if_true, Option.some_bind, decide_True, Bool.and_self]
        exact ih (basePtr - 1) (by omega)
      · simp [h0, hs]
    · simp [h0]

theorem popLevelChecked_eq (b : List XMLCh) (basePtr : Int) (h : basePtr ≤ (b.length : Int)) :
    popLevelChecked b basePtr = some (popLevel b basePtr) :=
  scanBackChecked_eq b _ _ (by omega)

theorem readAll_eq (s : List XMLCh) :
    ∀ l : List Nat, (∀ i ∈ l, i ≤ s.length) → readAll s l = some (l.map (charAt s)) := by
  intro l
  induction l with
  | nil => intro _; rfl
  | cons i is ih =>
    intro h
    simp only [readAll]
    rw [readAt_nat s i (h i (by simp)), ih (fun j hj => h j (List.mem_cons_of_mem _ hj))]
    simp

theorem copyBaseChecked_eq (b : List XMLCh) (basePtr : Int) (h : basePtr < (b.length : Int)) :
    copyBaseChecked b basePtr = some (copyBase b basePtr) := by
  unfold copyBaseChecked copyBase
  apply readAll_eq
  intro i hi
  rw [List.mem_range] at hi
  omega

theorem weaveLoopChecked_eq (b s : List XMLCh) :
    ∀ (fuel : Nat) (bp : Int) (i : Nat), bp ≤ (b.length : Int) → i ≤ s.length →
      weaveLoopChecked b s fuel bp i = some (weaveLoop b s fuel bp i) := by
  intro fuel
  induction fuel with
  | zero => intro bp i _ _; rfl
  | succ n ih =>
    intro bp i hbp hi
    have hpop := popLevel_lt b bp
    simp only [weaveLoopChecked, weaveLoop]
    rw [readAt_nat s i hi]
    simp only [Option.some_bind]
    by_cases h0 : charAt s i = chPeriod
    · have hi0 : i < s.length := charAt_lt_of_ne_zero s i (by rw [h0]; decide)
      rw [readAt_nat s (i + 1) (by omega)]
      simp only [Option.some_bind]
      by_cases h1 : charAt s (i + 1) = chPeriod
      · have hi1 : i + 1 < s.length := charAt_lt_of_ne_zero s (i + 1) (by rw [h1]; decide)
        simp only [h0, h1, bne_self_eq_false, Bool.false_eq_true, if_false, beq_self_eq_true,
          if_true]
        rw [readAt_nat s (i + 1 + 1) (by omega)]
        simp only [Option.some_bind]
        by_cases h2 : (notSlash (charAt s (i + 1 + 1)) && charAt s (i + 1 + 1) != 0) = true
        · simp only [h2, if_true]
        · rw [popLevelChecked_eq b bp hbp]
          by_cases h3 : charAt s (i + 1 + 1) = 0
          · simp only [h2, h3]
            simp
            exact ih (popLevel b bp) (i + 1 + 1) (by omega) (by omega)
          · have hi2 : i + 1 + 1 < s.length := charAt_lt_of_ne_zero s _ h3
            simp only [h2]
            simp [h3]
            exact ih (popLevel b bp) (i + 1 + 1 + 1) (by omega) (by omega)
      · have h1b : (charAt s (i + 1) == chPeriod) = false := by simpa using h1
        simp only [h0, h1b, bne_self_eq_false, Bool.false_eq_true, if_false]
        rw [readAt_nat s (i + 1) (by omega)]
        simp only [Option.some_bind]
        by_cases h2 : (notSlash (charAt s (i + 1)) && charAt s (i + 1) != 0) = true
        · simp only [h2, if_true]
        · by_cases h3 : charAt s (i + 1) = 0
          · simp only [h2, h3]
            simp
            exact ih bp (i + 1) hbp (by omega)
          · have hi1 : i + 1 < s.length := charAt_lt_of_ne_zero s _ h3
            simp only [h2]
            simp [h3]
            exact ih bp (i + 1 + 1) hbp (by omega)
    · simp [h0]

/-- No run of `weavePaths` reads outside its two strings: with every read checked the
function returns, and returns what `weavePaths` returns. -/
theorem weavePathsChecked_eq (base : Option (List XMLCh)) (rel : List XMLCh) :
    weavePathsChecked base rel = some (weavePaths base rel) := by
  cases base with
  | none => simp [weavePathsChecked, weavePaths, copyStringChecked]
  | some b =>
    simp only [weavePathsChecked, weavePaths]
    rw [readAt_int b 0 (le_refl _) (by omega)]
    simp only [Option.some_bind, Int.toNat_zero]
    by_cases hz : charAt b 0 = 0
    · simp [hz, copyStringChecked]
    · have hlen : 0 < b.length := charAt_lt_of_ne_zero b 0 hz
      have hL : (stringLen (some b) : Int) - 1 = ((b.length - 1 : Nat) : Int) := by
        simp only [stringLen]; omega
      simp only [hz, if_false]
      rw [hL, readAt_nat b (b.length - 1) (by omega), Int.toNat_ofNat]
      simp only [Option.some_bind]
      rw [scanBackChecked_eq b (b.length + 1) _ (by omega)]
      have hlt : (if notSlash (charAt b (b.length - 1)) = true then
          scanBack b (b.length + 1) ((b.length - 1 : Nat) : Int)
          else ((b.length - 1 : Nat) : Int)) < (b.length : Int) := by
        split
        · have := scanBack_le b (b.length + 1) ((b.length - 1 : Nat) : Int)
          omega
        · omega
      have hsome : (if notSlash (charAt b (b.length - 1)) = true then
          some (scanBack b (b.length + 1) ((b.length - 1 : Nat) : Int))
          else some ((b.length - 1 : Nat) : Int)) =
          some (if notSlash (charAt b (b.length - 1)) = true then
            scanBack b (b.length + 1) ((b.length - 1 : Nat) : Int)
            else ((b.length - 1 : Nat) : Int)) := by
        split <;> rfl
      rw [hsome]
      simp only [Option.some_bind]
      revert hlt
      generalize (if notSlash (charAt b (b.length - 1)) = true then
        scanBack b (b.length + 1) ((b.length - 1 : Nat) : Int)
        else ((b.length - 1 : Nat) : Int)) = bp0
      intro hlt
      by_cases hneg : bp0 < 0
      · simp [hneg, copyStringChecked]
      · have hb := weaveLoop_bounds b rel (rel.length + 1) bp0 0 (Nat.zero_le _)
        simp only [hneg, if_false]
        rw [weaveLoopChecked_eq b rel _ bp0 0 (by omega) (Nat.zero_le _)]
        simp only [Option.some_bind]
        rw [copyBaseChecked_eq b _ (lt_of_le_of_lt hb.1 hlt)]
        simp [copyStringChecked, hb.2.2]

/-! ## Path weaving: more ascents than the base has levels -/

/-- A path with at least one separator splits at its first separator. -/
theorem split_first_slash :
    ∀ (b : List XMLCh) (m : Nat), b.countP isSlash = m → 1 ≤ m →
      ∃ p c mid, b = p ++ c :: mid ∧ (∀ x ∈ p, notSlash x = true) ∧ notSlash c = false ∧
        mid.countP isSlash = m - 1 := by
  intro b
  induction b with
  | nil => intro m h hm; simp at h; omega
  | cons a t ih =>
    intro m h hm
    by_cases ha : notSlash a = true
    · have hcount : t.countP isSlash = m := by
        rw [List.countP_cons] at h
        simpa [isSlash_eq_not, ha] using h
      obtain ⟨p, c, mid, hb, hp, hc, hmid⟩ := ih m hcount hm
      refine ⟨a :: p, c, mid, by rw [hb]; rfl, ?_, hc, hmid⟩
      intro x hx
      rcases List.mem_cons.mp hx with hx | hx
      · rw [hx]; exact ha
      · exact hp x hx
    · have ha2 : notSlash a = false := by simpa using ha
      refine ⟨[], a, t, rfl, by simp, ha2, ?_⟩
      rw [List.countP_cons] at h
      simp [isSlash_eq_not, ha2] at h
      omega

theorem scanBack_miss_upto (b : List XMLCh) :
    ∀ (i fuel : Nat), (∀ j, j ≤ i → notSlash (charAt b j) = true) → i < fuel →
      scanBack b fuel (i : Int) = -1 := by
  intro i
  induction i with
  | zero =>
    intro fuel hall hf
    obtain ⟨f, rfl⟩ : ∃ f, fuel = f + 1 := ⟨fuel - 1, by omega⟩
    simp only [scanBack]
    simp [hall 0 (le_refl _)]
    exact scanBack_neg b f (-1) (by omega)
  | succ i ih =>
    intro fuel hall hf
    obtain ⟨f, rfl⟩ : ∃ f, fuel = f + 1 := ⟨fuel - 1, by omega⟩
    simp only [scanBack]
    rw [Int.toNat_ofNat, hall (i + 1) (le_refl _)]
    have hrec : ((i + 1 : Nat) : Int) - 1 = (i : Int) := by push_cast; ring
    rw [hrec]
    simp only [ge_iff_le, Int.ofNat_zero_le, decide_True, Bool.and_self, if_true]
    exact ih f (fun j hj => hall j (by omega)) (by omega)

/-- A pop from the first separator of the base path leaves `basePtr` before its start. -/
theorem popLevel_first_slash (p : List XMLCh) (c : XMLCh) (mid : List XMLCh)
    (hp : ∀ x ∈ p, notSlash x = true) :
    popLevel (p ++ c :: mid) (p.length : Int) = -1 := by
  unfold popLevel
  cases hlen : p.length with
  | zero => exact scanBack_neg _ _ _ (by simp)
  | succ n =>
    have hidx : ((n + 1 : Nat) : Int) - 1 = (n : Int) := by push_cast; ring
    rw [hidx]
    apply scanBack_miss_upto _ n _ _ (by simp; omega)
    intro j hj
    have hjp : j < p.length := by omega
    have hch : charAt (p ++ c :: mid) j = p[j] := by
      rw [charAt_of_lt _ j (by simp; omega)]
      exact List.getElem_append_left hjp
    rw [hch]
    exact hp _ (List.getElem_mem hjp)

theorem popLevel_iterate_le (b : List XMLCh) :
    ∀ (j : Nat) (bp : Int), (popLevel b)^[j] bp ≤ bp := by
  intro j
  induction j with
  | zero => intro bp; exact le_refl _
  | succ j ih =>
    intro bp
    rw [Function.iterate_succ, Function.comp_apply]
    have h1 := ih (popLevel b bp)
    have h2 := popLevel_lt b bp
    omega

/-- With at least as many `../` segments as the base path has separators, `basePtr` ends
before the start of the base path. -/
theorem popLevel_iterate_exhausted (base : List XMLCh) (m k : Nat) (hm : 1 ≤ m)
    (hbase : base.countP isSlash = m) (hk : m ≤ k) :
    ∃ P e m2, base = P ++ e :: m2 ∧ notSlash e = false ∧ (∀ x ∈ m2, notSlash x = true) ∧
      (popLevel base)^[k] (P.length : Int) < 0 := by
  obtain ⟨p, c, mid, hb, hp, hc, hmid⟩ := split_first_slash base m hbase hm
  obtain ⟨P, e, m2, hsplit, he, hm2, hpop⟩ := exists_last_slash_pop p c mid (m - 1) hc hmid
  refine ⟨P, e, m2, by rw [hb, hsplit], he, hm2, ?_⟩
  have hk2 : k = (k - m) + 1 + (m - 1) := by omega
  rw [hk2, Function.iterate_add_apply, hb, hpop, Function.iterate_succ, Function.comp_apply,
    popLevel_first_slash p c mid hp]
  have := popLevel_iterate_le (p ++ c :: mid) (k - m) (-1)
  omega

/-- C18: for a base path with exactly `m ≥ 1` separators, `k ≥ m` and a remainder `r` that
does not begin with a period, `weavePaths` on `k` copies of `../` followed by `r` runs with
every read inside the string it reads, from the start of the string to its terminator, and
returns exactly `r`, nothing of the base path kept; the function has no way to signal an
error. -/
theorem weavePaths_base_exhausted (base r : List XMLCh) (m k : Nat) (hm : 1 ≤ m)
    (hbase : base.countP isSlash = m) (hk : m ≤ k) (h0 : (0 : XMLCh) ∉ base)
    (hr : r.head? ≠ some chPeriod) :
    weavePathsChecked (some base) (dotDots k ++ r) = some r ∧
      weavePaths (some base) (dotDots k ++ r) = r := by
  have hmain : weavePaths (some base) (dotDots k ++ r) = r := by
    obtain ⟨P, e, m2, hsplit, he, hm2, hneg⟩ := popLevel_iterate_exhausted base m k hm hbase hk
    have hloop := weaveLoop_dotDots base r (charAt_zero_of_head r hr) k
      ((dotDots k ++ r).length + 1) (P.length : Int)
      (by rw [List.length_append, dotDots_length]; omega)
    have hdrop : List.drop (3 * k) (dotDots k ++ r) = r := by
      rw [← dotDots_length k]
      exact List.drop_left (dotDots k) r
    rw [hsplit] at h0
    have hdir := weavePaths_dir P e m2 (dotDots k ++ r) he hm2 h0
    rw [← hsplit] at hdir
    rw [hdir, hloop]
    simp only
    rw [copyBase_neg base _ hneg, hdrop]
    rfl
  exact ⟨by rw [weavePathsChecked_eq, hmain], hmain⟩

theorem weavePaths_base_exhausted_witness :
    (weavePathsChecked (some (xml "/a/b/c.xml")) (xml "../../../d.xml") = some (xml "d.xml") ∧
      weavePaths (some (xml "/a/b/c.xml")) (xml "../../../d.xml") = xml "d.xml") ∧
    (weavePathsChecked (some (xml "/a/b/c.xml")) (xml "../../../../d.xml") =
        some (xml "d.xml") ∧
      weavePaths (some (xml "/a/b/c.xml")) (xml "../../../../d.xml") = xml "d.xml") :=
  ⟨weavePaths_base_exhausted (xml "/a/b/c.xml") (xml "d.xml") 3 3 (by decide) (by decide)
      (by decide) (by decide) (by decide),
    weavePaths_base_exhausted (xml "/a/b/c.xml") (xml "d.xml") 3 4 (by decide) (by decide)
      (by decide) (by decide) (by decide)⟩

/-! ## `RecursiveMutex`: threads interleaved -/

/-- C16: a schedule of matched calls in which a thread that holds the lock does not take the
re-entrant branch. Thread 1 locks and unlocks; thread 2 completes `lock()` between the
`pthread_mutex_unlock` of thread 1 and its `tid = 0`; that late `tid = 0` erases the owner
thread 2 recorded. Thread 2 then holds the lock (one `lock()` returned, no `unlock()`), the
operating-system mutex is held by thread 2 and the recursion count is `1`, yet no owner is
recorded; its next `lock()` fails the test on `tid`, goes on to `pthread_mutex_lock` on the
mutex it holds itself, and waits there, with thread 1 outside both methods. -/
theorem lock_reentry_waits_after_late_clear :
    (Threads.start.run lateClearSchedule).map
        (fun s => (s.object, s.pc 1, s.pc 2, s.holds 1, s.holds 2)) =
      some ({ mutex := some 2, recursionCount := 1, tid := 0 }, .idle, .lockAcquire, 0, 1) ∧
    ((Threads.start.run lateClearSchedule).bind (Threads.move 2 .step)).isNone = true ∧
    ((Threads.start.run (lateClearSchedule.take 13)).map
        (fun s => (s.object, s.pc 2, s.holds 2))) = some (heldBy 2 1, .idle, 1) := by
  decide

/-! ## Emulated atomic operations: the two builds -/

/-- C21: in a run of one thread, with the global mutex free and both operating-system calls
succeeding, the threaded `compareAndSwap`, `atomicIncrement` and `atomicDecrement` return the
value and leave the target content that their counterparts of the build with
`APP_NO_THREADS` return and leave, for every initial content and every argument. -/
theorem atomic_operations_builds_agree (self : pthread_t) :
    (∀ (newValue toCompare : Nat) (s : AtomicState Nat), s.gAtomicOpMutex = none →
      (compareAndSwap self 0 0 newValue toCompare s).1 =
          .returned (NoThreads.compareAndSwap s.target newValue toCompare).1 ∧
        (compareAndSwap self 0 0 newValue toCompare s).2.target =
          (NoThreads.compareAndSwap s.target newValue toCompare).2) ∧
    (∀ s : AtomicState Int, s.gAtomicOpMutex = none →
      (atomicIncrement self 0 0 s).1 = .returned (NoThreads.atomicIncrement s.target).1 ∧
        (atomicIncrement self 0 0 s).2.target = (NoThreads.atomicIncrement s.target).2) ∧
    (∀ s : AtomicState Int, s.gAtomicOpMutex = none →
      (atomicDecrement self 0 0 s).1 = .returned (NoThreads.atomicDecrement s.target).1 ∧
        (atomicDecrement self 0 0 s).2.target = (NoThreads.atomicDecrement s.target).2) := by
  refine ⟨?_, ?_, ?_⟩
  · intro newValue toCompare s hfree
    by_cases hc : s.target = toCompare <;>
      simp [compareAndSwap, NoThreads.compareAndSwap, pthread_mutex_lock, pthread_mutex_unlock,
        AtomicState.access, hfree, hc]
  · intro s hfree
    simp [atomicIncrement, NoThreads.atomicIncrement, pthread_mutex_lock, pthread_mutex_unlock,
      AtomicState.access, hfree]
  · intro s hfree
    simp [atomicDecrement, NoThreads.atomicDecrement, pthread_mutex_lock, pthread_mutex_unlock,
      AtomicState.access, hfree]

theorem atomic_operations_builds_agree_witness :
    ((compareAndSwap 1 0 0 7 5 ⟨5, none, [], []⟩).1 =
        .returned (NoThreads.compareAndSwap 5 7 5).1 ∧
      (compareAndSwap 1 0 0 7 5 ⟨5, none, [], []⟩).2.target =
        (NoThreads.compareAndSwap 5 7 5).2) ∧
    ((atomicIncrement 1 0 0 ⟨2147483647, none, [], []⟩).1 =
        .returned (NoThreads.atomicIncrement 2147483647).1 ∧
      (atomicIncrement 1 0 0 ⟨2147483647, none, [], []⟩).2.target =
        (NoThreads.atomicIncrement 2147483647).2) ∧
    ((atomicDecrement 1 0 0 ⟨41, none, [], []⟩).1 =
        .returned (NoThreads.atomicDecrement 41).1 ∧
      (atomicDecrement 1 0 0 ⟨41, none, [], []⟩).2.target =
        (NoThreads.atomicDecrement 41).2) :=
  have h := atomic_operations_builds_agree 1
  ⟨h.1 7 5 ⟨5, none, [], []⟩ rfl, h.2.1 ⟨2147483647, none, [], []⟩ rfl,
    h.2.2 ⟨41, none, [], []⟩ rfl⟩

end Tru64
